import Mathlib

/-!
Verification of the snapsort listing/product matcher (`go.py`).

The Python source is shallowly embedded here: strings become `List Char`,
Python `str.find` / `str.translate` / `str.lower` / list and dict operations
become explicit Lean functions, and code that can raise (`IndexError` on an
out-of-range access) returns `Option`.  Machine-level details (the
`multiprocessing` plumbing, file I/O) are outside the embedded core; the
worker body and the merge loop are embedded as pure functions over the
listing sequence they read.
-/

namespace Snpsrt

/-- Delimiter characters, from `BOUNDARIES = [' ', '-','(', ')']`. -/
def BOUNDARIES : List Char := [' ', '-', '(', ')']

/-- Translation table, from `NUKE_TABLE = dict((ord(char), None) for char in u' -()')`:
each of the four delimiter code points is mapped to `None` (deletion). -/
def NUKE_TABLE : List (Nat × Option Char) :=
  [(32, none), (45, none), (40, none), (41, none)]

/-- Dictionary lookup by code point, modelling `table[ord(c)]` access during
`unicode.translate`. -/
def tableLookup (k : Nat) : List (Nat × Option Char) → Option (Option Char)
  | [] => none
  | (k', v) :: rest => if k = k' then some v else tableLookup k rest

/-- Python `unicode.translate(table)`: characters whose code point maps to
`None` are deleted, mapped characters are replaced, unmapped characters kept. -/
def pyTranslate (table : List (Nat × Option Char)) (s : List Char) : List Char :=
  s.filterMap (fun c =>
    match tableLookup c.toNat table with
    | none => some c
    | some v => v)

/-- Python `unicode.lower()` applied to one character (ASCII range: code
points 65-90 shift to 97-122, everything else is unchanged). -/
def pyLower (c : Char) : Char :=
  if 65 ≤ c.toNat ∧ c.toNat ≤ 90 then Char.ofNat (c.toNat + 32) else c

/-- Normalization as performed by the source at load time and on haystacks:
`s.translate(NUKE_TABLE).lower()`. -/
def normalize (s : List Char) : List Char :=
  (pyTranslate NUKE_TABLE s).map pyLower

theorem char_eq_of_toNat_eq {a b : Char} (h : a.toNat = b.toNat) : a = b := by
  have h2 := congrArg Char.ofNat h
  rwa [Char.ofNat_toNat, Char.ofNat_toNat] at h2

theorem toNat_ofNat_valid {n : Nat} (h : n < 55296) : (Char.ofNat n).toNat = n := by
  have hv : n.isValidChar := Or.inl h
  simp only [Char.ofNat, hv, dif_pos]
  simp [Char.ofNatAux, Char.toNat, UInt32.toNat]

/-- Predicate used to state what normalization keeps: a character distinct
from the four stripped delimiters. -/
def keepChar (c : Char) : Bool :=
  decide (¬ (c = ' ' ∨ c = '-' ∨ c = '(' ∨ c = ')'))

theorem keepChar_iff (c : Char) :
    keepChar c = true ↔ (c.toNat ≠ 32 ∧ c.toNat ≠ 45 ∧ c.toNat ≠ 40 ∧ c.toNat ≠ 41) := by
  simp only [keepChar, decide_eq_true_eq]
  constructor
  · intro h
    push_neg at h
    obtain ⟨h1, h2, h3, h4⟩ := h
    exact ⟨fun he => h1 (char_eq_of_toNat_eq he), fun he => h2 (char_eq_of_toNat_eq he),
           fun he => h3 (char_eq_of_toNat_eq he), fun he => h4 (char_eq_of_toNat_eq he)⟩
  · rintro ⟨h1, h2, h3, h4⟩ (rfl | rfl | rfl | rfl)
    · exact h1 rfl
    · exact h2 rfl
    · exact h3 rfl
    · exact h4 rfl

theorem tableLookup_nuke_of_keep {c : Char} (h : keepChar c = true) :
    tableLookup c.toNat NUKE_TABLE = none := by
  rw [keepChar_iff] at h
  obtain ⟨n1, n2, n3, n4⟩ := h
  simp [tableLookup, NUKE_TABLE, n1, n2, n3, n4]

theorem tableLookup_nuke_of_not_keep {c : Char} (h : keepChar c = false) :
    tableLookup c.toNat NUKE_TABLE = some none := by
  simp only [keepChar, decide_eq_false_iff_not, not_not] at h
  rcases h with h | h | h | h <;> subst h <;> rfl

theorem pyLower_upper {c : Char} (h : 65 ≤ c.toNat ∧ c.toNat ≤ 90) :
    pyLower c = Char.ofNat (c.toNat + 32) := by
  unfold pyLower
  exact if_pos h

theorem pyLower_other {c : Char} (h : ¬ (65 ≤ c.toNat ∧ c.toNat ≤ 90)) :
    pyLower c = c := by
  unfold pyLower
  exact if_neg h

theorem pyLower_pyLower (c : Char) : pyLower (pyLower c) = pyLower c := by
  by_cases h : 65 ≤ c.toNat ∧ c.toNat ≤ 90
  · have hv : c.toNat + 32 < 55296 := by omega
    have h2 : (pyLower c).toNat = c.toNat + 32 := by
      rw [pyLower_upper h, toNat_ofNat_valid hv]
    apply pyLower_other
    omega
  · rw [pyLower_other h, pyLower_other h]

theorem keepChar_pyLower {c : Char} (h : keepChar c = true) :
    keepChar (pyLower c) = true := by
  rw [keepChar_iff] at h ⊢
  by_cases hc : 65 ≤ c.toNat ∧ c.toNat ≤ 90
  · have hv : c.toNat + 32 < 55296 := by omega
    have h2 : (pyLower c).toNat = c.toNat + 32 := by
      rw [pyLower_upper hc, toNat_ofNat_valid hv]
    omega
  · rw [pyLower_other hc]
    exact h

theorem normalize_eq_filter_map (s : List Char) :
    normalize s = (s.filter keepChar).map pyLower := by
  induction s with
  | nil => rfl
  | cons c rest ih =>
    by_cases h : keepChar c = true
    · have hl := tableLookup_nuke_of_keep h
      simp only [normalize, pyTranslate, List.filterMap_cons, hl, List.filter_cons, h,
        if_pos, List.map_cons]
      exact congrArg _ ih
    · have hf : keepChar c = false := by simpa using h
      have hl := tableLookup_nuke_of_not_keep hf
      simp only [normalize, pyTranslate, List.filterMap_cons, hl, List.filter_cons, hf]
      exact ih

/-- Claim C7: normalization (translate with `NUKE_TABLE`, then lowercase)
removes exactly every occurrence of space, hyphen, open and close parenthesis
and lowercases the remaining characters; being a Lean function it is total on
every string; and it is idempotent. -/
theorem c7_normalize_removes_delims_and_idempotent (s : List Char) :
    normalize s =
      (s.filter (fun c => decide (¬ (c = ' ' ∨ c = '-' ∨ c = '(' ∨ c = ')')))).map pyLower ∧
    normalize (normalize s) = normalize s := by
  constructor
  · exact normalize_eq_filter_map s
  · rw [normalize_eq_filter_map s, normalize_eq_filter_map]
    have hfil : ((s.filter keepChar).map pyLower).filter keepChar
        = (s.filter keepChar).map pyLower := by
      apply List.filter_eq_self.mpr
      intro a ha
      rcases List.mem_map.mp ha with ⟨c, hc, rfl⟩
      exact keepChar_pyLower (List.of_mem_filter hc)
    rw [hfil, List.map_map]
    apply List.map_congr_left
    intro a _
    exact pyLower_pyLower a

/-- Python `str.find` helper: scan positions from `i` upward, returning the
first position where `sub` is a prefix of the remaining text, or `-1`. -/
def pyFindAux (sub : List Char) : List Char → Nat → Int
  | [], i => if sub = [] then (i : Int) else -1
  | c :: rest, i =>
    if sub.isPrefixOf (c :: rest) then (i : Int) else pyFindAux sub rest (i + 1)

/-- Python `s.find(sub)`: index of the first occurrence of `sub` in `s`, or `-1`. -/
def pyFind (s sub : List Char) : Int := pyFindAux sub s 0

/-- Python sequence indexing `s[i]` including negative-index wrap-around;
`none` models an `IndexError`. -/
def pyNth (s : List Char) (i : Int) : Option Char :=
  if i < 0 then
    if (-i).toNat ≤ s.length then s[s.length - (-i).toNat]? else none
  else s[i.toNat]?

/-- Inner `while` loop of `fuzzy_match`: starting at absolute haystack offset
`xp` (with the corresponding haystack suffix as first list argument) and `nm`
needle characters already matched, consume haystack characters, skipping
delimiters, until the needle is exhausted, a mismatch occurs, or the haystack
ends.  Returns the final `(xprime, needle_match)`. -/
def consume (needle : List Char) : List Char → Nat → Nat → Nat × Nat
  | [], xp, nm => (xp, nm)
  | c :: rest, xp, nm =>
    if h : nm < needle.length then
      if c ∈ BOUNDARIES then consume needle rest (xp + 1) nm
      else if pyLower c = needle.get ⟨nm, h⟩ then consume needle rest (xp + 1) (nm + 1)
      else (xp, nm)
    else (xp, nm)

/-- Acceptance test applied once the whole needle has been consumed, the
consumption having ended at offset `j` (`xprime` in the source):
`xprime == len(haystack) or (haystack[xprime] in BOUNDARIES) or
(haystack[xprime].isalpha() ^ haystack[xprime-1].isalpha()) or
(haystack[xprime].isdigit() ^ haystack[xprime-1].isdigit())`.
A `none` result models an `IndexError` on the character accesses. -/
def accept (haystack : List Char) (j : Nat) : Option Bool :=
  if j = haystack.length then some true
  else
    match pyNth haystack (j : Int) with
    | none => none
    | some c =>
      if c ∈ BOUNDARIES then some true
      else
        match pyNth haystack ((j : Int) - 1) with
        | none => none
        | some p => some (xor c.isAlpha p.isAlpha || xor c.isDigit p.isDigit)

/-- Outer scan loop of `fuzzy_match` over the starting offsets
`xrange(quick_start, len(haystack)-len(needle)+1)`; `fuel` is the number of
offsets left to try and `cm` is the `can_match` flag.  A `none` result models
an `IndexError` (reachable only for an empty needle). -/
def scanAux (haystack needle : List Char) : Nat → Nat → Bool → Option Int
  | 0, _, _ => some (-1)
  | fuel + 1, x, cm =>
    match haystack[x]? with
    | none => none
    | some c =>
      if c ∈ BOUNDARIES then scanAux haystack needle fuel (x + 1) true
      else if cm = false then scanAux haystack needle fuel (x + 1) false
      else
        if (consume needle (haystack.drop x) x 0).2 = needle.length then
          match accept haystack (consume needle (haystack.drop x) x 0).1 with
          | none => none
          | some b =>
            if b then some (x : Int) else scanAux haystack needle fuel (x + 1) false
        else scanAux haystack needle fuel (x + 1) false

/-- One `fuzzy_match` computation on a fresh cache: normalize the haystack,
quick-reject when the needle is not a substring of the normalized haystack,
otherwise run the boundary scan from the position found.  The result `-1`
means not-found; `none` models an uncaught `IndexError`.  The memoised
variant threading the `settings` cache appears further below
(`fuzzyMatchS`); the cache-transparency claim C10 proves the two agree. -/
def fuzzyMatch (haystack needle : List Char) : Option Int :=
  let stripped := normalize haystack
  let quick_start := pyFind stripped needle
  if quick_start < 0 then some (-1)
  else
    scanAux haystack needle
      (((haystack.length : Int) - (needle.length : Int) + 1 - quick_start).toNat)
      quick_start.toNat true

/-- Does the haystack carry a delimiter character at offset `y`? -/
def boundaryAt (haystack : List Char) (y : Nat) : Bool :=
  match haystack[y]? with
  | some c => decide (c ∈ BOUNDARIES)
  | none => false

/-- Does the haystack carry a non-delimiter character at offset `y`? -/
def nonBoundaryAt (haystack : List Char) (y : Nat) : Bool :=
  match haystack[y]? with
  | some c => decide (c ∉ BOUNDARIES)
  | none => false

/-- Whether the scan loop, started at offset `start` with `can_match` flag
`cm`, performs a consumption attempt at offset `y`: the character there is no
delimiter, and either `y` is the very first scanned offset or the scan has
just crossed a delimiter. -/
def attemptedAt (haystack : List Char) (start : Nat) (cm : Bool) (y : Nat) : Bool :=
  nonBoundaryAt haystack y && (if y = start then cm else boundaryAt haystack (y - 1))

/-- Whether a consumption attempt at offset `y` matches the whole needle and
passes the acceptance test. -/
def attemptOk (haystack needle : List Char) (y : Nat) : Bool :=
  decide ((consume needle (haystack.drop y) y 0).2 = needle.length) &&
    decide (accept haystack (consume needle (haystack.drop y) y 0).1 = some true)

theorem attemptedAt_succ_eq {haystack : List Char} {x : Nat} (cm : Bool) {z : Nat}
    (hz : x + 1 ≤ z) :
    attemptedAt haystack (x + 1) (boundaryAt haystack x) z = attemptedAt haystack x cm z := by
  unfold attemptedAt
  by_cases hzx : z = x + 1
  · subst hzx
    have h1 : ¬ (x + 1 = x) := by omega
    simp [h1]
  · have h2 : ¬ (z = x) := by omega
    simp [hzx, h2]

theorem consume_snd_ge (needle : List Char) :
    ∀ (rest : List Char) (xp nm : Nat), nm ≤ (consume needle rest xp nm).2 := by
  intro rest
  induction rest with
  | nil => intro xp nm; exact Nat.le_refl nm
  | cons c rest ih =>
    intro xp nm
    unfold consume
    split
    · split
      · exact ih (xp + 1) nm
      · split
        · exact Nat.le_trans (Nat.le_succ nm) (ih (xp + 1) (nm + 1))
        · exact Nat.le_refl nm
    · exact Nat.le_refl nm

theorem consume_fst_ge (needle : List Char) :
    ∀ (rest : List Char) (xp nm : Nat),
      (consume needle rest xp nm).2 + xp ≤ (consume needle rest xp nm).1 + nm := by
  intro rest
  induction rest with
  | nil => intro xp nm; simp [consume]; omega
  | cons c rest ih =>
    intro xp nm
    unfold consume
    split
    · split
      · have := ih (xp + 1) nm
        omega
      · split
        · have := ih (xp + 1) (nm + 1)
          omega
        · simp; omega
    · simp; omega

theorem consume_fst_le (needle : List Char) :
    ∀ (rest : List Char) (xp nm : Nat),
      (consume needle rest xp nm).1 ≤ xp + rest.length := by
  intro rest
  induction rest with
  | nil => intro xp nm; simp [consume]
  | cons c rest ih =>
    intro xp nm
    unfold consume
    split
    · split
      · have := ih (xp + 1) nm
        simp only [List.length_cons]
        omega
      · split
        · have := ih (xp + 1) (nm + 1)
          simp only [List.length_cons]
          omega
        · simp only [List.length_cons]
          omega
    · simp only [List.length_cons]
      omega

/-- Soundness of the scan loop: a returned non-negative offset `y` lies in
the scanned range, is an attempted offset whose consumption is accepted, and
no earlier attempted offset in the range is accepted. -/
theorem scanAux_sound (haystack needle : List Char) :
    ∀ (fuel x : Nat) (cm : Bool) (y : Nat),
      scanAux haystack needle fuel x cm = some (y : Int) →
      x ≤ y ∧ y < x + fuel ∧ attemptedAt haystack x cm y = true ∧
        attemptOk haystack needle y = true ∧
        ∀ z, x ≤ z → z < y → attemptedAt haystack x cm z = true →
          attemptOk haystack needle z = false := by
  intro fuel
  induction fuel with
  | zero =>
    intro x cm y h
    exfalso
    simp only [scanAux, Option.some.injEq] at h
    omega
  | succ fuel ih =>
    intro x cm y h
    unfold scanAux at h
    split at h
    · exact absurd h (by simp)
    · rename_i c hget
      split at h
      · -- haystack[x] is a delimiter: recurse with can_match = true
        rename_i hb
        have hbd : boundaryAt haystack x = true := by simp [boundaryAt, hget, hb]
        obtain ⟨h1, h2, h3, h4, h5⟩ := ih (x + 1) true y h
        refine ⟨by omega, by omega, ?_, h4, ?_⟩
        · rw [← attemptedAt_succ_eq cm h1, hbd]
          exact h3
        · intro z hz1 hz2 hz3
          by_cases hzx : z = x
          · subst hzx
            have hnb : nonBoundaryAt haystack z = false := by
              simp [nonBoundaryAt, hget, hb]
            simp [attemptedAt, hnb] at hz3
          · have hz1' : x + 1 ≤ z := by omega
            rw [← attemptedAt_succ_eq cm hz1', hbd] at hz3
            exact h5 z hz1' hz2 hz3
      · rename_i hb
        have hbd : boundaryAt haystack x = false := by simp [boundaryAt, hget, hb]
        have hnb : nonBoundaryAt haystack x = true := by simp [nonBoundaryAt, hget, hb]
        split at h
        · -- can_match is false: skip this offset
          rename_i hcm
          obtain ⟨h1, h2, h3, h4, h5⟩ := ih (x + 1) false y h
          refine ⟨by omega, by omega, ?_, h4, ?_⟩
          · rw [← attemptedAt_succ_eq cm h1, hbd]
            exact h3
          · intro z hz1 hz2 hz3
            by_cases hzx : z = x
            · subst hzx
              simp [attemptedAt, hcm] at hz3
            · have hz1' : x + 1 ≤ z := by omega
              rw [← attemptedAt_succ_eq cm hz1', hbd] at hz3
              exact h5 z hz1' hz2 hz3
        · -- consumption attempt at x
          rename_i hcm
          have hcmt : cm = true := by
            cases cm
            · exact absurd rfl hcm
            · rfl
          subst hcmt
          split at h
          · -- whole needle matched
            rename_i hnm
            split at h
            · exact absurd h (by simp)
            · rename_i b hacc
              split at h
              · -- accepted: the loop returns x
                rename_i hbt
                have hxy : x = y := by
                  simp only [Option.some.injEq] at h
                  omega
                subst hxy
                refine ⟨Nat.le_refl x, by omega, ?_, ?_, ?_⟩
                · simp [attemptedAt, hnb]
                · simp [attemptOk, hnm, hacc, hbt]
                · intro z hz1 hz2
                  omega
              · -- acceptance failed: continue from the next offset
                rename_i hbf
                have hbf' : b = false := by
                  cases b
                  · rfl
                  · exact absurd rfl hbf
                subst hbf'
                obtain ⟨h1, h2, h3, h4, h5⟩ := ih (x + 1) false y h
                refine ⟨by omega, by omega, ?_, h4, ?_⟩
                · rw [← attemptedAt_succ_eq true h1, hbd]
                  exact h3
                · intro z hz1 hz2 hz3
                  by_cases hzx : z = x
                  · subst hzx
                    simp [attemptOk, hacc]
                  · have hz1' : x + 1 ≤ z := by omega
                    rw [← attemptedAt_succ_eq true hz1', hbd] at hz3
                    exact h5 z hz1' hz2 hz3
          · -- consumption fell short of the needle
            rename_i hnm
            obtain ⟨h1, h2, h3, h4, h5⟩ := ih (x + 1) false y h
            refine ⟨by omega, by omega, ?_, h4, ?_⟩
            · rw [← attemptedAt_succ_eq true h1, hbd]
              exact h3
            · intro z hz1 hz2 hz3
              by_cases hzx : z = x
              · subst hzx
                simp [attemptOk, hnm]
              · have hz1' : x + 1 ≤ z := by omega
                rw [← attemptedAt_succ_eq true hz1', hbd] at hz3
                exact h5 z hz1' hz2 hz3

theorem attemptedAt_cases {haystack : List Char} {s : Nat} {cm : Bool} {y : Nat}
    (h : attemptedAt haystack s cm y = true) :
    y = s ∨ boundaryAt haystack (y - 1) = true := by
  by_cases hys : y = s
  · exact Or.inl hys
  · unfold attemptedAt at h
    rw [if_neg hys] at h
    simp only [Bool.and_eq_true] at h
    exact Or.inr h.2

theorem attemptedAt_nonBoundary {haystack : List Char} {s : Nat} {cm : Bool} {y : Nat}
    (h : attemptedAt haystack s cm y = true) :
    nonBoundaryAt haystack y = true := by
  unfold attemptedAt at h
  simp only [Bool.and_eq_true] at h
  exact h.1

theorem nonBoundaryAt_spec {haystack : List Char} {y : Nat}
    (h : nonBoundaryAt haystack y = true) :
    ∃ hy : y < haystack.length, haystack.get ⟨y, hy⟩ ∉ BOUNDARIES := by
  unfold nonBoundaryAt at h
  split at h
  · rename_i c hget
    obtain ⟨hy, hgv⟩ := List.getElem?_eq_some_iff.mp hget
    refine ⟨hy, ?_⟩
    rw [List.get_eq_getElem, hgv]
    exact of_decide_eq_true h
  · cases h

theorem attemptOk_parts {haystack needle : List Char} {y : Nat}
    (h : attemptOk haystack needle y = true) :
    (consume needle (haystack.drop y) y 0).2 = needle.length ∧
      accept haystack (consume needle (haystack.drop y) y 0).1 = some true := by
  unfold attemptOk at h
  simp only [Bool.and_eq_true] at h
  exact ⟨of_decide_eq_true h.1, of_decide_eq_true h.2⟩

theorem consume_first_char {needle : List Char} {c : Char} {rest : List Char} {xp : Nat}
    (hb : c ∉ BOUNDARIES) (h0 : 0 < needle.length)
    (hfull : (consume needle (c :: rest) xp 0).2 = needle.length) :
    pyLower c = needle.get ⟨0, h0⟩ := by
  by_contra hne2
  unfold consume at hfull
  rw [dif_pos h0, if_neg hb, if_neg hne2] at hfull
  simp at hfull
  omega

theorem fuzzyMatch_eq_scan {haystack needle : List Char} {r : Int}
    (hres : fuzzyMatch haystack needle = some r) (hr : 0 ≤ r) :
    0 ≤ pyFind (normalize haystack) needle ∧
      scanAux haystack needle
        (((haystack.length : Int) - (needle.length : Int) + 1 -
            pyFind (normalize haystack) needle).toNat)
        (pyFind (normalize haystack) needle).toNat true = some r := by
  simp only [fuzzyMatch] at hres
  split at hres
  · rename_i hq
    simp only [Option.some.injEq] at hres
    omega
  · rename_i hq
    exact ⟨by omega, hres⟩

/-- Claim C1 (amended): when `fuzzy_match` returns a non-negative offset `i`,
that offset is at least the quick-start offset (the position of the first
occurrence of the needle in the delimiter-stripped haystack), it is either
exactly that quick-start offset or is immediately preceded by a delimiter,
its consumption attempt matches the whole needle and is accepted, and it is
the leftmost attempted offset at or after quick-start whose attempt is
accepted.  (The original claim, that the returned offset is always `0` or
preceded by a delimiter and leftmost among such word-boundary starts, is
refuted by `c1_counterexample`: the attempt at the quick-start offset happens
even when that offset does not follow a delimiter.) -/
theorem c1_first_accepted_attempt (haystack needle : List Char) (r : Int)
    (hres : fuzzyMatch haystack needle = some r) (hr : 0 ≤ r) :
    (pyFind (normalize haystack) needle).toNat ≤ r.toNat ∧
    (r.toNat = (pyFind (normalize haystack) needle).toNat ∨
      boundaryAt haystack (r.toNat - 1) = true) ∧
    attemptOk haystack needle r.toNat = true ∧
    (∀ z, (pyFind (normalize haystack) needle).toNat ≤ z → z < r.toNat →
      attemptedAt haystack (pyFind (normalize haystack) needle).toNat true z = true →
      attemptOk haystack needle z = false) := by
  obtain ⟨hq, hscan⟩ := fuzzyMatch_eq_scan hres hr
  have hr2 : r = ((r.toNat : Nat) : Int) := (Int.toNat_of_nonneg hr).symm
  rw [hr2] at hscan
  obtain ⟨h1, h2, h3, h4, h5⟩ := scanAux_sound haystack needle _ _ _ _ hscan
  exact ⟨h1, attemptedAt_cases h3, h4, h5⟩

/-- Claim C1 counterexample: for haystack `"XAB"` and the non-empty
normalized needle `"ab"`, `fuzzy_match` returns offset 1, yet offset 1 is
not a word-boundary start: it is not 0 and the preceding character `'X'` is
no delimiter. -/
theorem c1_counterexample :
    fuzzyMatch "XAB".data "ab".data = some 1 ∧
    normalize "ab".data = "ab".data ∧
    "ab".data ≠ [] ∧
    ¬ ((1 : Int).toNat = 0 ∨ boundaryAt "XAB".data ((1 : Int).toNat - 1) = true) := by
  decide

/-- Concrete instantiation of `c1_first_accepted_attempt`, discharging its
hypotheses at a doctest input. -/
theorem c1_witness :
    (fuzzyMatch "Canon SX-1200-IS".data "sx1200is".data = some 6 ∧ (0 : Int) ≤ 6) ∧
    ((pyFind (normalize "Canon SX-1200-IS".data) "sx1200is".data).toNat ≤ (6 : Int).toNat ∧
      ((6 : Int).toNat = (pyFind (normalize "Canon SX-1200-IS".data) "sx1200is".data).toNat ∨
        boundaryAt "Canon SX-1200-IS".data ((6 : Int).toNat - 1) = true) ∧
      attemptOk "Canon SX-1200-IS".data "sx1200is".data (6 : Int).toNat = true ∧
      (∀ z, (pyFind (normalize "Canon SX-1200-IS".data) "sx1200is".data).toNat ≤ z →
        z < (6 : Int).toNat →
        attemptedAt "Canon SX-1200-IS".data
          (pyFind (normalize "Canon SX-1200-IS".data) "sx1200is".data).toNat true z = true →
        attemptOk "Canon SX-1200-IS".data "sx1200is".data z = false)) :=
  ⟨⟨by decide, by decide⟩,
    c1_first_accepted_attempt "Canon SX-1200-IS".data "sx1200is".data 6 (by decide) (by decide)⟩

/-- Claim C6: for a non-empty needle, a returned non-negative offset `i`
satisfies `0 ≤ i ≤ len(haystack) - len(needle)`, the haystack character at
`i` is no delimiter, and that character lowercases to the first needle
character; moreover the two positive doctest evaluations return 6 (the
offset of `"SX"`) and the `"sony"` doctest reports not-found. -/
theorem c6_offset_bounds_and_first_char (haystack needle : List Char) (r : Int)
    (hne : needle ≠ []) (hres : fuzzyMatch haystack needle = some r) (hr : 0 ≤ r) :
    (0 ≤ r ∧ r ≤ (haystack.length : Int) - (needle.length : Int) ∧
      ∃ hy : r.toNat < haystack.length,
        haystack.get ⟨r.toNat, hy⟩ ∉ BOUNDARIES ∧
        ∃ h0 : 0 < needle.length,
          pyLower (haystack.get ⟨r.toNat, hy⟩) = needle.get ⟨0, h0⟩) ∧
    fuzzyMatch "Canon SX-1200-IS".data "sx1200is".data = some 6 ∧
    fuzzyMatch "Canon SX1200(IS)".data "sx1200is".data = some 6 ∧
    fuzzyMatch "Canon SX-1200-IS".data "sony".data = some (-1) := by
  refine ⟨?_, by decide, by decide, by decide⟩
  obtain ⟨hq, hscan⟩ := fuzzyMatch_eq_scan hres hr
  have hr2 : r = ((r.toNat : Nat) : Int) := (Int.toNat_of_nonneg hr).symm
  rw [hr2] at hscan
  obtain ⟨h1, h2, h3, h4, h5⟩ := scanAux_sound haystack needle _ _ _ _ hscan
  have h0 : 0 < needle.length := List.length_pos.mpr hne
  have hub : r ≤ (haystack.length : Int) - (needle.length : Int) := by omega
  refine ⟨hr, hub, ?_⟩
  obtain ⟨hy, hcb⟩ := nonBoundaryAt_spec (attemptedAt_nonBoundary h3)
  obtain ⟨hfull, hacc⟩ := attemptOk_parts h4
  rw [List.drop_eq_getElem_cons hy] at hfull
  have hcb' : haystack[r.toNat] ∉ BOUNDARIES := by
    rw [List.get_eq_getElem] at hcb
    exact hcb
  refine ⟨hy, hcb, h0, ?_⟩
  rw [List.get_eq_getElem]
  exact consume_first_char hcb' h0 hfull

/-- Concrete instantiation of `c6_offset_bounds_and_first_char`, discharging
its hypotheses at a doctest input. -/
theorem c6_witness :
    ("sx1200is".data ≠ [] ∧ fuzzyMatch "Canon SX-1200-IS".data "sx1200is".data = some 6 ∧
      (0 : Int) ≤ 6) ∧
    ((0 ≤ (6 : Int) ∧
        (6 : Int) ≤ (("Canon SX-1200-IS".data.length : Int) - ("sx1200is".data.length : Int)) ∧
      ∃ hy : (6 : Int).toNat < "Canon SX-1200-IS".data.length,
        "Canon SX-1200-IS".data.get ⟨(6 : Int).toNat, hy⟩ ∉ BOUNDARIES ∧
        ∃ h0 : 0 < "sx1200is".data.length,
          pyLower ("Canon SX-1200-IS".data.get ⟨(6 : Int).toNat, hy⟩) =
            "sx1200is".data.get ⟨0, h0⟩) ∧
      fuzzyMatch "Canon SX-1200-IS".data "sx1200is".data = some 6 ∧
      fuzzyMatch "Canon SX1200(IS)".data "sx1200is".data = some 6 ∧
      fuzzyMatch "Canon SX-1200-IS".data "sony".data = some (-1)) :=
  ⟨⟨by decide, by decide, by decide⟩,
    c6_offset_bounds_and_first_char "Canon SX-1200-IS".data "sx1200is".data 6
      (by decide) (by decide) (by decide)⟩

/-- Claim C3: the acceptance rule at end offset `j` holds exactly when `j` is
the haystack end, or the character at `j` is a delimiter, or its
alphabetic-ness or digit-ness differs from that of the character at `j - 1`;
consequently `fuzzy_match("Panasonic FX25", "fx2")` is not found. -/
theorem c3_acceptance_rule (haystack : List Char) (j : Nat)
    (h1 : 1 ≤ j) (h2 : j ≤ haystack.length) :
    (accept haystack j = some true ↔
      (j = haystack.length ∨ haystack.getD j 'a' ∈ BOUNDARIES ∨
        xor (haystack.getD j 'a').isAlpha (haystack.getD (j - 1) 'a').isAlpha = true ∨
        xor (haystack.getD j 'a').isDigit (haystack.getD (j - 1) 'a').isDigit = true)) ∧
    fuzzyMatch "Panasonic FX25".data "fx2".data = some (-1) := by
  refine ⟨?_, by decide⟩
  by_cases hj : j = haystack.length
  · simp [accept, hj]
  · have hj2 : j < haystack.length := by omega
    have hj3 : j - 1 < haystack.length := by omega
    have hge : ¬ ((j : Int) < 0) := by omega
    have e1 : pyNth haystack (j : Int) = some haystack[j] := by
      simp [pyNth, hge, List.getElem?_eq_getElem hj2]
    have e2 : pyNth haystack ((j : Int) - 1) = some haystack[j - 1] := by
      have hcast : ((j : Int)) - 1 = ((j - 1 : Nat) : Int) := by omega
      have hge2 : ¬ (((j - 1 : Nat) : Int) < 0) := by omega
      rw [hcast]
      simp [pyNth, hge2, List.getElem?_eq_getElem hj3]
    have d1 : haystack.getD j 'a' = haystack[j] := by
      simp [List.getD_eq_getElem?_getD, List.getElem?_eq_getElem hj2]
    have d2 : haystack.getD (j - 1) 'a' = haystack[j - 1] := by
      simp [List.getD_eq_getElem?_getD, List.getElem?_eq_getElem hj3]
    unfold accept
    rw [if_neg hj, e1, e2, d1, d2]
    by_cases hbd : haystack[j] ∈ BOUNDARIES
    · simp [hbd, hj]
    · simp [hbd, hj]

/-- Concrete instantiation of `c3_acceptance_rule`, discharging its
hypotheses at offset 1 of the haystack `"a1"`. -/
theorem c3_witness :
    ((1 : Nat) ≤ 1 ∧ 1 ≤ "a1".data.length) ∧
    ((accept "a1".data 1 = some true ↔
      (1 = "a1".data.length ∨ "a1".data.getD 1 'a' ∈ BOUNDARIES ∨
        xor ("a1".data.getD 1 'a').isAlpha ("a1".data.getD (1 - 1) 'a').isAlpha = true ∨
        xor ("a1".data.getD 1 'a').isDigit ("a1".data.getD (1 - 1) 'a').isDigit = true)) ∧
    fuzzyMatch "Panasonic FX25".data "fx2".data = some (-1)) :=
  ⟨⟨by decide, by decide⟩, c3_acceptance_rule "a1".data 1 (by decide) (by decide)⟩

theorem pyFindAux_spec (sub : List Char) :
    ∀ (s : List Char) (i : Nat),
      pyFindAux sub s i = -1 ∨
      ∃ j : Nat, pyFindAux sub s i = (j : Int) ∧ i ≤ j ∧ j - i + sub.length ≤ s.length ∧
        sub.isPrefixOf (s.drop (j - i)) = true := by
  intro s
  induction s with
  | nil =>
    intro i
    by_cases h : sub = []
    · right
      refine ⟨i, by simp [pyFindAux, h], Nat.le_refl i, by simp [h], ?_⟩
      subst h
      simp [List.isPrefixOf]
    · left
      simp [pyFindAux, h]
  | cons c rest ih =>
    intro i
    by_cases h : sub.isPrefixOf (c :: rest) = true
    · right
      refine ⟨i, by simp [pyFindAux, h], Nat.le_refl i, ?_, by simpa using h⟩
      have hple := List.IsPrefix.length_le (List.isPrefixOf_iff_prefix.mp h)
      simp only [List.length_cons] at hple ⊢
      omega
    · rcases ih (i + 1) with hm | ⟨j, hj, hij, hlen, hpre⟩
      · left
        simp [pyFindAux, h, hm]
      · right
        refine ⟨j, by simp [pyFindAux, h, hj], by omega, ?_, ?_⟩
        · simp only [List.length_cons]
          omega
        · have hd : (c :: rest).drop (j - i) = rest.drop (j - i - 1) := by
            have h1 : j - i = (j - i - 1) + 1 := by omega
            rw [h1]
            rfl
          rw [hd]
          have h2 : j - i - 1 = j - (i + 1) := by omega
          rw [h2]
          exact hpre

theorem pyFind_nonneg_bounds {s sub : List Char} {q : Int}
    (h : pyFind s sub = q) (hq : 0 ≤ q) :
    q.toNat + sub.length ≤ s.length ∧ sub.isPrefixOf (s.drop q.toNat) = true := by
  rcases pyFindAux_spec sub s 0 with hm | ⟨j, hj, _, hlen, hpre⟩
  · rw [pyFind, hm] at h
    omega
  · rw [pyFind, hj] at h
    have hqj : q.toNat = j := by omega
    rw [hqj]
    constructor
    · omega
    · simpa using hpre

theorem accept_isSome {haystack : List Char} {j : Nat}
    (h1 : 1 ≤ j) (h2 : j ≤ haystack.length) :
    accept haystack j ≠ none := by
  unfold accept
  by_cases hj : j = haystack.length
  · simp [hj]
  · have hj2 : j < haystack.length := by omega
    have hj3 : j - 1 < haystack.length := by omega
    have e1 : pyNth haystack (j : Int) = some haystack[j] := by
      have hge : ¬ ((j : Int) < 0) := by omega
      simp [pyNth, hge, List.getElem?_eq_getElem hj2]
    have e2 : pyNth haystack ((j : Int) - 1) = some haystack[j - 1] := by
      have hcast : ((j : Int)) - 1 = ((j - 1 : Nat) : Int) := by omega
      have hge2 : ¬ (((j - 1 : Nat) : Int) < 0) := by omega
      rw [hcast]
      simp [pyNth, hge2, List.getElem?_eq_getElem hj3]
    rw [if_neg hj, e1, e2]
    by_cases hbd : haystack[j] ∈ BOUNDARIES
    · simp [hbd]
    · simp [hbd]

theorem scanAux_ne_none (haystack needle : List Char) (hne : needle ≠ [])
    (hlen : needle.length ≤ haystack.length) :
    ∀ (fuel x : Nat) (cm : Bool), x + fuel ≤ haystack.length - needle.length + 1 →
      scanAux haystack needle fuel x cm ≠ none := by
  have h0 : 0 < needle.length := List.length_pos.mpr hne
  intro fuel
  induction fuel with
  | zero =>
    intro x cm hb
    simp [scanAux]
  | succ fuel ih =>
    intro x cm hb
    have hx : x < haystack.length := by omega
    unfold scanAux
    split
    · rename_i hget
      exfalso
      rw [List.getElem?_eq_none_iff] at hget
      omega
    · rename_i c hget
      split
      · exact ih (x + 1) true (by omega)
      · split
        · exact ih (x + 1) false (by omega)
        · split
          · rename_i hb2 hcm hnm
            have hge1 : (consume needle (haystack.drop x) x 0).2 + x ≤
                (consume needle (haystack.drop x) x 0).1 + 0 :=
              consume_fst_ge needle (haystack.drop x) x 0
            have hle1 : (consume needle (haystack.drop x) x 0).1 ≤
                x + (haystack.drop x).length :=
              consume_fst_le needle (haystack.drop x) x 0
            rw [List.length_drop] at hle1
            have ha1 : 1 ≤ (consume needle (haystack.drop x) x 0).1 := by omega
            have ha2 : (consume needle (haystack.drop x) x 0).1 ≤ haystack.length := by omega
            have hacc := accept_isSome ha1 ha2
            cases hac : accept haystack (consume needle (haystack.drop x) x 0).1 with
            | none => exact absurd hac hacc
            | some b =>
              simp only [hac]
              cases b
              · exact ih (x + 1) false (by omega)
              · simp
          · exact ih (x + 1) false (by omega)

theorem fuzzyMatch_ne_none {haystack needle : List Char} (hne : needle ≠ []) :
    fuzzyMatch haystack needle ≠ none := by
  simp only [fuzzyMatch]
  split
  · simp
  · rename_i hq
    push_neg at hq
    obtain ⟨hb, hpre⟩ := pyFind_nonneg_bounds rfl hq
    have hlen2 : (normalize haystack).length ≤ haystack.length := by
      rw [normalize_eq_filter_map]
      rw [List.length_map]
      exact List.length_filter_le _ _
    exact scanAux_ne_none haystack needle hne (by omega) _ _ true (by omega)

/-- A listing record: the matching core only reads its `title` field. -/
structure Listing where
  title : List Char

/-- A product record as produced by `load_products`: the display name and the
normalized underscore fields (`manufacturer_`, `model_`, optional
`family_`). -/
structure Product where
  product_name : List Char
  manufacturer_ : List Char
  model_ : List Char
  family_ : Option (List Char)

/-- Loop of `match_product` over the product list, accumulating the
`family_hits` and `all_hits` lists; `none` models an uncaught exception
raised by a `fuzzy_match` call.  Following the cache transparency proved for
claim C10, the memoised `fuzzy_match` calls are embedded by the fresh-cache
function `fuzzyMatch`. -/
def matchLoop (title : List Char) :
    List Product → List (List Char) → List (List Char) →
      Option (List (List Char) × List (List Char))
  | [], family_hits, all_hits => some (family_hits, all_hits)
  | x :: rest, family_hits, all_hits =>
    match fuzzyMatch title x.manufacturer_ with
    | none => none
    | some m =>
      if 0 ≤ m then
        match fuzzyMatch title x.model_ with
        | none => none
        | some mo =>
          if 0 ≤ mo then
            match x.family_ with
            | some f =>
              match fuzzyMatch title f with
              | none => none
              | some fr =>
                if 0 ≤ fr then
                  matchLoop title rest (family_hits ++ [x.product_name])
                    (all_hits ++ [x.product_name])
                else matchLoop title rest family_hits (all_hits ++ [x.product_name])
            | none => matchLoop title rest family_hits (all_hits ++ [x.product_name])
          else matchLoop title rest family_hits all_hits
      else matchLoop title rest family_hits all_hits

/-- Embedding of `match_product`: accessory rejection via the
`' for ' / ' pour ' / ' für '` test on the lowercased title (note the source
tests `find(...) > 0`), then the per-product loop and the family-preference
rule. -/
def match_product (listing : Listing) (products : List Product) :
    Option (List (List Char)) :=
  if 0 < pyFind (listing.title.map pyLower) " for ".data ∨
     0 < pyFind (listing.title.map pyLower) " pour ".data ∨
     0 < pyFind (listing.title.map pyLower) " für ".data then some []
  else
    match matchLoop listing.title products [] [] with
    | none => none
    | some (family_hits, all_hits) =>
      if 0 < family_hits.length then some family_hits else some all_hits

/-- Boolean reading of one `fuzzy_match(...) >= 0` test (an exception counts
as no hit; the theorems below exclude that case by hypothesis). -/
def fmHit (title needle : List Char) : Bool :=
  match fuzzyMatch title needle with
  | some r => decide (0 ≤ r)
  | none => false

/-- The all-hit product names of a title: manufacturer and model both
fuzzy-match. -/
def allHits (title : List Char) (products : List Product) : List (List Char) :=
  (products.filter (fun x => fmHit title x.manufacturer_ && fmHit title x.model_)).map
    (fun x => x.product_name)

/-- The family-hit product names of a title: manufacturer and model
fuzzy-match and the family is present and fuzzy-matches too. -/
def familyHits (title : List Char) (products : List Product) : List (List Char) :=
  (products.filter (fun x => fmHit title x.manufacturer_ && fmHit title x.model_ &&
      (match x.family_ with | some f => fmHit title f | none => false))).map
    (fun x => x.product_name)

/-- Field well-formedness for a product list: the normalized needles handed
to `fuzzy_match` are non-empty, which rules out the `IndexError` path. -/
abbrev goodFields (products : List Product) : Prop :=
  ∀ p ∈ products, p.manufacturer_ ≠ [] ∧ p.model_ ≠ [] ∧ p.family_ ≠ some []

theorem fmHit_eq {title needle : List Char} {r : Int}
    (h : fuzzyMatch title needle = some r) :
    fmHit title needle = decide (0 ≤ r) := by
  unfold fmHit
  rw [h]

theorem matchLoop_spec (title : List Char) :
    ∀ (products : List Product) (fh ah : List (List Char)),
      goodFields products →
      matchLoop title products fh ah =
        some (fh ++ familyHits title products, ah ++ allHits title products) := by
  intro products
  induction products with
  | nil =>
    intro fh ah h
    simp [matchLoop, familyHits, allHits]
  | cons x rest ih =>
    intro fh ah h
    obtain ⟨hm, hmo, hf⟩ := h x (List.mem_cons_self x rest)
    have hrest : goodFields rest := fun p hp => h p (List.mem_cons_of_mem x hp)
    cases hfm : fuzzyMatch title x.manufacturer_ with
    | none => exact absurd hfm (fuzzyMatch_ne_none hm)
    | some m =>
      unfold matchLoop
      simp only [hfm]
      by_cases hm0 : 0 ≤ m
      · rw [if_pos hm0]
        cases hfo : fuzzyMatch title x.model_ with
        | none => exact absurd hfo (fuzzyMatch_ne_none hmo)
        | some mo =>
          simp only [hfo]
          by_cases hmo0 : 0 ≤ mo
          · rw [if_pos hmo0]
            have hmani : fmHit title x.manufacturer_ = true := by
              rw [fmHit_eq hfm]
              exact decide_eq_true hm0
            have hmodi : fmHit title x.model_ = true := by
              rw [fmHit_eq hfo]
              exact decide_eq_true hmo0
            cases hfam : x.family_ with
            | none =>
              simp only [hfam]
              rw [ih _ _ hrest]
              simp [familyHits, allHits, List.filter_cons, hmani, hmodi, hfam,
                List.append_assoc]
            | some f =>
              simp only [hfam]
              have hfne : f ≠ [] := fun hfe => hf (by rw [hfam, hfe])
              cases hff : fuzzyMatch title f with
              | none => exact absurd hff (fuzzyMatch_ne_none hfne)
              | some fr =>
                simp only [hff]
                by_cases hfr0 : 0 ≤ fr
                · rw [if_pos hfr0, ih _ _ hrest]
                  have hfami : fmHit title f = true := by
                    rw [fmHit_eq hff]
                    exact decide_eq_true hfr0
                  simp [familyHits, allHits, List.filter_cons, hmani, hmodi, hfam, hfami,
                    List.append_assoc]
                · rw [if_neg hfr0, ih _ _ hrest]
                  have hfami : fmHit title f = false := by
                    rw [fmHit_eq hff]
                    exact decide_eq_false hfr0
                  simp [familyHits, allHits, List.filter_cons, hmani, hmodi, hfam, hfami,
                    List.append_assoc]
          · rw [if_neg hmo0, ih _ _ hrest]
            have hmodi : fmHit title x.model_ = false := by
              rw [fmHit_eq hfo]
              exact decide_eq_false hmo0
            simp [familyHits, allHits, List.filter_cons, hmodi]
      · rw [if_neg hm0, ih _ _ hrest]
        have hmani : fmHit title x.manufacturer_ = false := by
          rw [fmHit_eq hfm]
          exact decide_eq_false hm0
        simp [familyHits, allHits, List.filter_cons, hmani]

/-- Product from the accessory doctest:
`{'product_name' : 'T99', 'manufacturer_' : 'sony', 'model_' : 'dsct99'}`. -/
def sonyT99 : Product := ⟨"T99".data, "sony".data, "dsct99".data, none⟩

/-- Claim C2 counterexample: the title `" for Sony DSC-T99"` contains the
word `" for "` (its first occurrence is at offset 0), yet `match_product`
does not reject it as an accessory — per-product matching runs and returns
`["T99"]` — because the source tests `find(' for ') > 0` and the occurrence
at offset 0 fails that test. -/
theorem c2_counterexample :
    0 ≤ pyFind (" for Sony DSC-T99".data.map pyLower) " for ".data ∧
    match_product ⟨" for Sony DSC-T99".data⟩ [sonyT99] = some ["T99".data] := by
  decide

/-- Claim C2 (amended): when the lowercased title contains `" for "`,
`" pour "` or `" für "` at a positive offset (the first occurrence of the
word is not at the very start of the title), `match_product` returns the
empty list immediately, whatever the product list — so no per-product
matching can influence the result; in particular the doctest title
`"Battery for Sony DSC-T99"` against the sony/dsct99 product yields the
empty candidate list. -/
theorem c2_accessory_rejection (title : List Char) (products : List Product)
    (h : 0 < pyFind (title.map pyLower) " for ".data ∨
         0 < pyFind (title.map pyLower) " pour ".data ∨
         0 < pyFind (title.map pyLower) " für ".data) :
    match_product ⟨title⟩ products = some [] ∧
    match_product ⟨"Battery for Sony DSC-T99".data⟩ [sonyT99] = some [] := by
  refine ⟨?_, by decide⟩
  unfold match_product
  rw [if_pos h]

/-- Concrete instantiation of `c2_accessory_rejection`, discharging its
hypothesis at the doctest title. -/
theorem c2_witness :
    (0 < pyFind ("Battery for Sony DSC-T99".data.map pyLower) " for ".data ∨
     0 < pyFind ("Battery for Sony DSC-T99".data.map pyLower) " pour ".data ∨
     0 < pyFind ("Battery for Sony DSC-T99".data.map pyLower) " für ".data) ∧
    (match_product ⟨"Battery for Sony DSC-T99".data⟩ [sonyT99] = some [] ∧
     match_product ⟨"Battery for Sony DSC-T99".data⟩ [sonyT99] = some []) :=
  ⟨by decide,
    c2_accessory_rejection "Battery for Sony DSC-T99".data [sonyT99] (by decide)⟩

/-- Claim C4: for a listing that is not accessory-rejected and products whose
normalized needles are non-empty, `match_product` returns the family-hits
when that list is non-empty and the all-hits otherwise; every family-hit is
an all-hit; and the section-8 example with products `WG-1-GPS` (family
`optio`) and `WG-1` (no family) against title `"Pentax Optio WG 1 GPS"`
returns exactly `["WG-1-GPS"]`. -/
theorem c4_family_preference (title : List Char) (products : List Product)
    (hacc : ¬ (0 < pyFind (title.map pyLower) " for ".data ∨
               0 < pyFind (title.map pyLower) " pour ".data ∨
               0 < pyFind (title.map pyLower) " für ".data))
    (hfields : goodFields products) :
    (match_product ⟨title⟩ products =
      some (if familyHits title products = [] then allHits title products
            else familyHits title products)) ∧
    (∀ n, n ∈ familyHits title products → n ∈ allHits title products) ∧
    match_product ⟨"Pentax Optio WG 1 GPS".data⟩
      [⟨"WG-1-GPS".data, "pentax".data, "wg1gps".data, some "optio".data⟩,
       ⟨"WG-1".data, "pentax".data, "wg1".data, none⟩] = some ["WG-1-GPS".data] := by
  refine ⟨?_, ?_, by decide⟩
  · unfold match_product
    rw [if_neg hacc]
    simp only [matchLoop_spec title products [] [] hfields, List.nil_append]
    by_cases hfe : familyHits title products = []
    · simp [hfe]
    · simp [hfe, List.length_pos.mpr hfe]
  · intro n hn
    unfold familyHits at hn
    rcases List.mem_map.mp hn with ⟨x, hx, rfl⟩
    have hmem := List.mem_filter.mp hx
    have hc := hmem.2
    simp only [Bool.and_eq_true] at hc
    unfold allHits
    apply List.mem_map.mpr
    refine ⟨x, List.mem_filter.mpr ⟨hmem.1, ?_⟩, rfl⟩
    simp only [Bool.and_eq_true]
    exact hc.1

/-- Concrete instantiation of `c4_family_preference`, discharging its
hypotheses at the section-8 example. -/
theorem c4_witness :
    ((¬ (0 < pyFind ("Pentax Optio WG 1 GPS".data.map pyLower) " for ".data ∨
         0 < pyFind ("Pentax Optio WG 1 GPS".data.map pyLower) " pour ".data ∨
         0 < pyFind ("Pentax Optio WG 1 GPS".data.map pyLower) " für ".data)) ∧
      goodFields
        [⟨"WG-1-GPS".data, "pentax".data, "wg1gps".data, some "optio".data⟩,
         ⟨"WG-1".data, "pentax".data, "wg1".data, none⟩]) ∧
    ((match_product ⟨"Pentax Optio WG 1 GPS".data⟩
        [⟨"WG-1-GPS".data, "pentax".data, "wg1gps".data, some "optio".data⟩,
         ⟨"WG-1".data, "pentax".data, "wg1".data, none⟩] =
      some (if familyHits "Pentax Optio WG 1 GPS".data
              [⟨"WG-1-GPS".data, "pentax".data, "wg1gps".data, some "optio".data⟩,
               ⟨"WG-1".data, "pentax".data, "wg1".data, none⟩] = [] then
              allHits "Pentax Optio WG 1 GPS".data
                [⟨"WG-1-GPS".data, "pentax".data, "wg1gps".data, some "optio".data⟩,
                 ⟨"WG-1".data, "pentax".data, "wg1".data, none⟩]
            else
              familyHits "Pentax Optio WG 1 GPS".data
                [⟨"WG-1-GPS".data, "pentax".data, "wg1gps".data, some "optio".data⟩,
                 ⟨"WG-1".data, "pentax".data, "wg1".data, none⟩])) ∧
      (∀ n, n ∈ familyHits "Pentax Optio WG 1 GPS".data
              [⟨"WG-1-GPS".data, "pentax".data, "wg1gps".data, some "optio".data⟩,
               ⟨"WG-1".data, "pentax".data, "wg1".data, none⟩] →
            n ∈ allHits "Pentax Optio WG 1 GPS".data
              [⟨"WG-1-GPS".data, "pentax".data, "wg1gps".data, some "optio".data⟩,
               ⟨"WG-1".data, "pentax".data, "wg1".data, none⟩]) ∧
      match_product ⟨"Pentax Optio WG 1 GPS".data⟩
        [⟨"WG-1-GPS".data, "pentax".data, "wg1gps".data, some "optio".data⟩,
         ⟨"WG-1".data, "pentax".data, "wg1".data, none⟩] = some ["WG-1-GPS".data]) :=
  ⟨⟨by decide, by decide⟩,
    c4_family_preference "Pentax Optio WG 1 GPS".data
      [⟨"WG-1-GPS".data, "pentax".data, "wg1gps".data, some "optio".data⟩,
       ⟨"WG-1".data, "pentax".data, "wg1".data, none⟩] (by decide) (by decide)⟩

/-- Python string comparison `a < b`: lexicographic by code point, a proper
prefix being smaller. -/
def strLt : List Char → List Char → Bool
  | _, [] => false
  | [], _ :: _ => true
  | a :: as, b :: bs =>
    if a.toNat < b.toNat then true
    else if b.toNat < a.toNat then false
    else strLt as bs

/-- Python `max(product_names)`: left fold keeping the current value unless
the next element is strictly greater (`max([])` raises and is guarded by the
caller; the embedding returns `[]` there). -/
def pyMax : List (List Char) → List Char
  | [] => []
  | n0 :: rest => rest.foldl (fun acc x => if strLt acc x then x else acc) n0

/-- Decimal digits of a natural number, fuel-recursive; `natStr` supplies
enough fuel for every input. -/
def natDigitsAux : Nat → Nat → List Char
  | 0, _ => []
  | fuel + 1, n =>
    if n < 10 then [Char.ofNat (48 + n)]
    else natDigitsAux fuel (n / 10) ++ [Char.ofNat (48 + n % 10)]

/-- Python `str(n)` for a natural number. -/
def natStr (n : Nat) : List Char := natDigitsAux (n + 1) n

/-- Python `str(i)` for an integer (sign, then decimal digits). -/
def intStr : Int → List Char
  | Int.ofNat n => natStr n
  | Int.negSucc n => '-' :: natStr (n + 1)

/-- Resolution of one listing's candidate names, embedded from the
`match_listings` body: with a non-empty candidate list, compute
`longest_match = max(product_names)`; if the concatenation of
`str(longest_match.find(pn))` over the candidates equals `'0' * len`, the
maximal name wins; otherwise a single candidate wins by the `elif`;
otherwise the listing is dropped (`none`). -/
def resolveNames (product_names : List (List Char)) : Option (List Char) :=
  if 0 < product_names.length then
    match product_names with
    | [] => none
    | n0 :: _ =>
      if (product_names.map
            (fun pn => intStr (pyFind (pyMax product_names) pn))).flatten =
          List.replicate product_names.length '0' then
        some (pyMax product_names)
      else if product_names.length = 1 then some n0
      else none
  else none

theorem strLt_irrefl : ∀ a : List Char, strLt a a = false := by
  intro a
  induction a with
  | nil => rfl
  | cons ha ta ih =>
    unfold strLt
    rw [if_neg (by omega), if_neg (by omega)]
    exact ih

theorem strLt_trans : ∀ (a b c : List Char),
    strLt a b = true → strLt b c = true → strLt a c = true := by
  intro a
  induction a with
  | nil =>
    intro b c hab hbc
    cases c with
    | nil =>
      cases b with
      | nil => simp [strLt] at hab
      | cons hb tb => simp [strLt] at hbc
    | cons hc tc => simp [strLt]
  | cons ha ta ih =>
    intro b c hab hbc
    cases b with
    | nil => simp [strLt] at hab
    | cons hb tb =>
      cases c with
      | nil => simp [strLt] at hbc
      | cons hc tc =>
        unfold strLt at hab hbc ⊢
        by_cases h1 : ha.toNat < hb.toNat
        · by_cases h2 : hb.toNat < hc.toNat
          · rw [if_pos (by omega)]
          · rw [if_neg h2] at hbc
            by_cases h3 : hc.toNat < hb.toNat
            · rw [if_pos h3] at hbc
              cases hbc
            · rw [if_neg h3] at hbc
              rw [if_pos (by omega)]
        · rw [if_neg h1] at hab
          by_cases h1' : hb.toNat < ha.toNat
          · rw [if_pos h1'] at hab
            cases hab
          · rw [if_neg h1'] at hab
            by_cases h2 : hb.toNat < hc.toNat
            · rw [if_pos (by omega)]
            · rw [if_neg h2] at hbc
              by_cases h3 : hc.toNat < hb.toNat
              · rw [if_pos h3] at hbc
                cases hbc
              · rw [if_neg h3] at hbc
                rw [if_neg (by omega), if_neg (by omega)]
                exact ih tb tc hab hbc

theorem strLt_eq_of_not_lt : ∀ (a b : List Char),
    strLt a b = false → strLt b a = false → a = b := by
  intro a
  induction a with
  | nil =>
    intro b hab hba
    cases b with
    | nil => rfl
    | cons hb tb => simp [strLt] at hab
  | cons ha ta ih =>
    intro b hab hba
    cases b with
    | nil => simp [strLt] at hba
    | cons hb tb =>
      unfold strLt at hab hba
      by_cases h1 : ha.toNat < hb.toNat
      · rw [if_pos h1] at hab
        cases hab
      · rw [if_neg h1] at hab
        by_cases h2 : hb.toNat < ha.toNat
        · rw [if_pos h2] at hba
          cases hba
        · rw [if_neg h2] at hab
          rw [if_neg h2, if_neg h1] at hba
          have hchar : ha = hb := char_eq_of_toNat_eq (by omega)
          rw [hchar, ih tb hab hba]

theorem strLt_asymm (a b : List Char) (h : strLt a b = true) : strLt b a = false := by
  cases hres : strLt b a
  · rfl
  · have h2 := strLt_trans a b a h hres
    rw [strLt_irrefl] at h2
    cases h2

theorem strLt_ge_trans (a b c : List Char)
    (h1 : strLt a b = false) (h2 : strLt b c = false) : strLt a c = false := by
  cases hres : strLt a c
  · rfl
  · exfalso
    cases hcb : strLt c b
    · have he := strLt_eq_of_not_lt c b hcb h2
      subst he
      rw [hres] at h1
      cases h1
    · have h3 := strLt_trans a c b hres hcb
      rw [h3] at h1
      cases h1

theorem foldl_max_mem : ∀ (rest : List (List Char)) (acc : List Char),
    rest.foldl (fun acc x => if strLt acc x then x else acc) acc = acc ∨
    rest.foldl (fun acc x => if strLt acc x then x else acc) acc ∈ rest := by
  intro rest
  induction rest with
  | nil => intro acc; exact Or.inl rfl
  | cons x xs ih =>
    intro acc
    simp only [List.foldl_cons]
    rcases ih (if strLt acc x then x else acc) with h | h
    · rw [h]
      by_cases hc : strLt acc x = true
      · right
        rw [if_pos hc]
        exact List.mem_cons_self x xs
      · left
        rw [if_neg hc]
    · right
      exact List.mem_cons_of_mem x h

theorem foldl_max_ge_acc : ∀ (rest : List (List Char)) (acc : List Char),
    strLt (rest.foldl (fun acc x => if strLt acc x then x else acc) acc) acc = false := by
  intro rest
  induction rest with
  | nil => intro acc; exact strLt_irrefl acc
  | cons y ys ih =>
    intro acc
    simp only [List.foldl_cons]
    by_cases hc : strLt acc y = true
    · rw [if_pos hc]
      exact strLt_ge_trans _ y acc (ih y) (strLt_asymm acc y hc)
    · rw [if_neg hc]
      exact ih acc

theorem foldl_max_ub : ∀ (rest : List (List Char)) (acc x : List Char),
    x ∈ rest →
    strLt (rest.foldl (fun acc x => if strLt acc x then x else acc) acc) x = false := by
  intro rest
  induction rest with
  | nil =>
    intro acc x hx
    cases hx
  | cons y ys ih =>
    intro acc x hx
    simp only [List.foldl_cons]
    rcases List.mem_cons.mp hx with h1 | h1
    · subst h1
      by_cases hc : strLt acc x = true
      · rw [if_pos hc]
        exact foldl_max_ge_acc ys x
      · rw [if_neg hc]
        have hcf : strLt acc x = false := by
          cases hr : strLt acc x
          · rfl
          · exact absurd hr hc
        exact strLt_ge_trans _ acc x (foldl_max_ge_acc ys acc) hcf
    · exact ih _ x h1

theorem pyMax_mem (l : List (List Char)) (hl : l ≠ []) : pyMax l ∈ l := by
  cases l with
  | nil => exact absurd rfl hl
  | cons n0 rest =>
    simp only [pyMax]
    rcases foldl_max_mem rest n0 with h | h
    · rw [h]
      exact List.mem_cons_self n0 rest
    · exact List.mem_cons_of_mem n0 h

theorem pyMax_ub (l : List (List Char)) (x : List Char) (hx : x ∈ l) :
    strLt (pyMax l) x = false := by
  cases l with
  | nil => cases hx
  | cons n0 rest =>
    simp only [pyMax]
    rcases List.mem_cons.mp hx with h | h
    · subst h
      exact foldl_max_ge_acc rest x
    · exact foldl_max_ub rest n0 x h

theorem pyMax_perm {l l' : List (List Char)} (hp : l.Perm l') (hl : l ≠ []) :
    pyMax l = pyMax l' := by
  have hl' : l' ≠ [] := by
    intro he
    subst he
    exact hl (List.perm_nil.mp hp)
  have h1 : pyMax l ∈ l' := hp.mem_iff.mp (pyMax_mem l hl)
  have h2 : pyMax l' ∈ l := hp.mem_iff.mpr (pyMax_mem l' hl')
  exact strLt_eq_of_not_lt _ _ (pyMax_ub l _ h2) (pyMax_ub l' _ h1)

theorem natDigitsAux_ne_nil (fuel n : Nat) (h : 0 < fuel) : natDigitsAux fuel n ≠ [] := by
  cases fuel with
  | zero => omega
  | succ f =>
    unfold natDigitsAux
    split
    · simp
    · simp

theorem natDigitsAux_eq_zero_char (fuel : Nat) :
    ∀ n : Nat, n ≤ fuel → natDigitsAux fuel n = ['0'] → n = 0 := by
  induction fuel with
  | zero =>
    intro n hn _
    omega
  | succ f ih =>
    intro n hn h
    unfold natDigitsAux at h
    split at h
    · rename_i h10
      simp only [List.cons.injEq, and_true] at h
      have h2 := congrArg Char.toNat h
      rw [toNat_ofNat_valid (by omega)] at h2
      have h48 : ('0' : Char).toNat = 48 := rfl
      rw [h48] at h2
      omega
    · rename_i h10
      exfalso
      have hf1 : 0 < f := by omega
      have hne := natDigitsAux_ne_nil f (n / 10) hf1
      cases hxs : natDigitsAux f (n / 10) with
      | nil => exact hne hxs
      | cons a b =>
        rw [hxs] at h
        simp at h

theorem intStr_ne_nil (i : Int) : intStr i ≠ [] := by
  cases i with
  | ofNat n => exact natDigitsAux_ne_nil (n + 1) n (by omega)
  | negSucc n => simp [intStr]

theorem intStr_eq_zero {i : Int} (h : intStr i = ['0']) : i = 0 := by
  cases i with
  | ofNat n =>
    have hz : n = 0 := natDigitsAux_eq_zero_char (n + 1) n (by omega) h
    subst hz
    rfl
  | negSucc n =>
    exfalso
    simp only [intStr] at h
    injection h with h1 h2
    exact absurd h1 (by decide)

theorem length_le_flatten_length : ∀ (ps : List (List Char)),
    (∀ p ∈ ps, p ≠ []) → ps.length ≤ ps.flatten.length := by
  intro ps
  induction ps with
  | nil => intro _; simp
  | cons p ps ih =>
    intro h
    simp only [List.flatten_cons, List.length_append, List.length_cons]
    have h1 : 0 < p.length := List.length_pos.mpr (h p (List.mem_cons_self p ps))
    have h2 := ih (fun q hq => h q (List.mem_cons_of_mem p hq))
    omega

theorem flatten_replicate_iff : ∀ (parts : List (List Char)) (c : Char),
    (∀ p ∈ parts, p ≠ []) →
    (parts.flatten = List.replicate parts.length c ↔ ∀ p ∈ parts, p = [c]) := by
  intro parts c
  induction parts with
  | nil =>
    intro _
    simp
  | cons p ps ih =>
    intro h
    have hp : p ≠ [] := h p (List.mem_cons_self p ps)
    have hps : ∀ q ∈ ps, q ≠ [] := fun q hq => h q (List.mem_cons_of_mem p hq)
    constructor
    · intro he
      simp only [List.flatten_cons, List.length_cons, List.replicate_succ] at he
      obtain ⟨c0, p', rfl⟩ : ∃ c0 p', p = c0 :: p' := by
        cases p with
        | nil => exact absurd rfl hp
        | cons a b => exact ⟨a, b, rfl⟩
      simp only [List.cons_append, List.cons.injEq] at he
      obtain ⟨rfl, he2⟩ := he
      have hlen := congrArg List.length he2
      simp only [List.length_append, List.length_replicate] at hlen
      have hge := length_le_flatten_length ps hps
      have hp0 : p' = [] := List.length_eq_zero.mp (by omega)
      subst hp0
      simp only [List.nil_append] at he2
      intro q hq
      rcases List.mem_cons.mp hq with rfl | hq2
      · rfl
      · exact ((ih hps).mp he2) q hq2
    · intro hall
      have hpc : p = [c] := hall p (List.mem_cons_self p ps)
      have hrest : ps.flatten = List.replicate ps.length c :=
        (ih hps).mpr (fun q hq => hall q (List.mem_cons_of_mem p hq))
      simp [hpc, hrest, List.replicate_succ]

theorem resolveCond_iff (names : List (List Char)) (M : List Char) :
    ((names.map (fun pn => intStr (pyFind M pn))).flatten =
        List.replicate names.length '0') ↔
    ∀ pn ∈ names, pyFind M pn = 0 := by
  have hne : ∀ p ∈ names.map (fun pn => intStr (pyFind M pn)), p ≠ [] := by
    intro p hp
    rcases List.mem_map.mp hp with ⟨pn, _, rfl⟩
    exact intStr_ne_nil _
  have hlm : names.length = (names.map (fun pn => intStr (pyFind M pn))).length := by
    simp
  rw [hlm, flatten_replicate_iff _ '0' hne]
  constructor
  · intro h pn hpn
    exact intStr_eq_zero (h _ (List.mem_map_of_mem _ hpn))
  · intro h p hp
    rcases List.mem_map.mp hp with ⟨pn, hpn, rfl⟩
    rw [h pn hpn]
    decide

theorem pyFind_eq_zero_iff {s sub : List Char} :
    pyFind s sub = 0 ↔ sub.isPrefixOf s = true := by
  unfold pyFind
  cases s with
  | nil =>
    cases sub with
    | nil => simp [pyFindAux, List.isPrefixOf]
    | cons a b => simp [pyFindAux, List.isPrefixOf]
  | cons c rest =>
    unfold pyFindAux
    by_cases h : sub.isPrefixOf (c :: rest) = true
    · simp [h]
    · simp [h]
      intro hz
      rcases pyFindAux_spec sub rest 1 with hm | ⟨j, hj, hij, hl2, hp2⟩
      · rw [hm] at hz
        exact absurd hz (by decide)
      · rw [hj] at hz
        omega

theorem isPrefixOf_self (l : List Char) : l.isPrefixOf l = true := by
  rw [List.isPrefixOf_iff_prefix]

theorem resolveNames_cons (n0 : List Char) (rest : List (List Char)) :
    resolveNames (n0 :: rest) =
      if ((n0 :: rest).map
            (fun pn => intStr (pyFind (pyMax (n0 :: rest)) pn))).flatten =
          List.replicate (n0 :: rest).length '0' then some (pyMax (n0 :: rest))
      else if (n0 :: rest).length = 1 then some n0
      else none := by
  unfold resolveNames
  rw [if_pos (by simp)]

theorem resolveNames_eq (names : List (List Char)) (hne : names ≠ []) :
    resolveNames names =
      if ∀ pn ∈ names, pn.isPrefixOf (pyMax names) = true then some (pyMax names)
      else none := by
  cases names with
  | nil => exact absurd rfl hne
  | cons n0 rest =>
    rw [resolveNames_cons]
    by_cases hc : ((n0 :: rest).map
        (fun pn => intStr (pyFind (pyMax (n0 :: rest)) pn))).flatten =
        List.replicate (n0 :: rest).length '0'
    · have hall := (resolveCond_iff (n0 :: rest) (pyMax (n0 :: rest))).mp hc
      have hpre : ∀ pn ∈ n0 :: rest, pn.isPrefixOf (pyMax (n0 :: rest)) = true := by
        intro pn hpn
        rw [← pyFind_eq_zero_iff]
        exact hall pn hpn
      rw [if_pos hc, if_pos hpre]
    · rw [if_neg hc]
      have hnpre : ¬ ∀ pn ∈ n0 :: rest, pn.isPrefixOf (pyMax (n0 :: rest)) = true := by
        intro hall
        apply hc
        rw [resolveCond_iff]
        intro pn hpn
        rw [pyFind_eq_zero_iff]
        exact hall pn hpn
      by_cases hl : (n0 :: rest).length = 1
      · exfalso
        have hrest : rest = [] := by
          cases rest with
          | nil => rfl
          | cons a b => simp at hl
        subst hrest
        apply hnpre
        intro pn hpn
        simp only [List.mem_singleton] at hpn
        subst hpn
        exact isPrefixOf_self _
      · rw [if_neg hl, if_neg hnpre]

/-- Claim C5: resolution of one listing's candidate list by the shard
driver: zero candidates drop the listing; a single candidate resolves to
itself; a non-empty candidate list resolves to the lexicographically maximal
candidate (which belongs to the list and is an upper bound of it) exactly
when every candidate is a prefix of that maximal name, the listing being
dropped otherwise; and the resolved outcome is the same under every
permutation of the candidate sequence. -/
theorem c5_resolution (names names' : List (List Char)) (a : List Char)
    (hp : names.Perm names') :
    resolveNames [] = none ∧
    resolveNames [a] = some a ∧
    (names ≠ [] →
      (pyMax names ∈ names ∧ (∀ x ∈ names, strLt (pyMax names) x = false) ∧
        resolveNames names =
          if ∀ pn ∈ names, pn.isPrefixOf (pyMax names) = true then some (pyMax names)
          else none)) ∧
    resolveNames names = resolveNames names' := by
  refine ⟨rfl, ?_, ?_, ?_⟩
  · have hm : pyMax [a] = a := rfl
    rw [resolveNames_eq [a] (by simp), hm]
    rw [if_pos ?_]
    intro pn hpn
    simp only [List.mem_singleton] at hpn
    subst hpn
    exact isPrefixOf_self _
  · intro hne
    exact ⟨pyMax_mem names hne, fun x hx => pyMax_ub names x hx,
      resolveNames_eq names hne⟩
  · by_cases hne : names = []
    · subst hne
      have hn' : names' = [] := List.perm_nil.mp hp.symm
      rw [hn']
    · have hne' : names' ≠ [] := fun he => hne (List.perm_nil.mp (he ▸ hp))
      rw [resolveNames_eq names hne, resolveNames_eq names' hne']
      rw [pyMax_perm hp hne]
      by_cases hcond : ∀ pn ∈ names', pn.isPrefixOf (pyMax names') = true
      · rw [if_pos (fun pn hpn => hcond pn (hp.mem_iff.mp hpn)), if_pos hcond]
      · rw [if_neg (fun hall => hcond (fun pn hpn => hall pn (hp.mem_iff.mpr hpn))),
          if_neg hcond]

/-- Concrete instantiation of `c5_resolution`, discharging its permutation
hypothesis on the two candidates of the WG-1 example in swapped orders. -/
theorem c5_witness :
    (List.Perm ["WG-1".data, "WG-1-GPS".data] ["WG-1-GPS".data, "WG-1".data]) ∧
    (resolveNames [] = none ∧
      resolveNames ["T99".data] = some "T99".data ∧
      (["WG-1".data, "WG-1-GPS".data] ≠ [] →
        (pyMax ["WG-1".data, "WG-1-GPS".data] ∈ ["WG-1".data, "WG-1-GPS".data] ∧
          (∀ x ∈ ["WG-1".data, "WG-1-GPS".data],
            strLt (pyMax ["WG-1".data, "WG-1-GPS".data]) x = false) ∧
          resolveNames ["WG-1".data, "WG-1-GPS".data] =
            if ∀ pn ∈ ["WG-1".data, "WG-1-GPS".data],
                pn.isPrefixOf (pyMax ["WG-1".data, "WG-1-GPS".data]) = true then
              some (pyMax ["WG-1".data, "WG-1-GPS".data])
            else none)) ∧
      resolveNames ["WG-1".data, "WG-1-GPS".data] =
        resolveNames ["WG-1-GPS".data, "WG-1".data]) :=
  ⟨by decide,
    c5_resolution ["WG-1".data, "WG-1-GPS".data] ["WG-1-GPS".data, "WG-1".data]
      "T99".data (by decide)⟩

/-- Dictionary lookup on the association-list model of a Python dict keyed
by product name (keys are unique; the first match is returned). -/
def dictGet : List (List Char × List Nat) → List Char → Option (List Nat)
  | [], _ => none
  | (k', v) :: rest, k => if k' = k then some v else dictGet rest k

/-- Extension of one entry of `merged_results`:
`merged_results[product_name].extend(matching_listings)` on the first
occurrence of the key, binding the key at the end when absent. -/
def dictExtend : List (List Char × List Nat) → List Char → List Nat →
    List (List Char × List Nat)
  | [], k, v => [(k, v)]
  | (k', v') :: rest, k, v =>
    if k' = k then (k', v' ++ v) :: rest else (k', v') :: dictExtend rest k v

/-- The merge loop body of `__main__` for one shard result:
`for product_name, matching_listings in result.iteritems(): ...`, extending
present keys and binding absent ones. -/
def mergeShard (merged : List (List Char × List Nat))
    (result : List (List Char × List Nat)) : List (List Char × List Nat) :=
  result.foldl (fun m kv =>
    if (dictGet m kv.1).isSome then dictExtend m kv.1 kv.2 else m ++ [kv]) merged

/-- The full merge of `__main__`: fold the shard results, in the order they
come out of the queue, into an initially empty dictionary. -/
def mergeAll (results : List (List (List Char × List Nat))) :
    List (List Char × List Nat) :=
  results.foldl mergeShard []

/-- Combination of an accumulated value and one shard's value for a key. -/
def combineOpt : Option (List Nat) → Option (List Nat) → Option (List Nat)
  | some v, some w => some (v ++ w)
  | some v, none => some v
  | none, some w => some w
  | none, none => none

theorem dictGet_dictExtend_same :
    ∀ (d : List (List Char × List Nat)) (k : List Char) (v : List Nat),
      dictGet (dictExtend d k v) k = some ((dictGet d k).getD [] ++ v) := by
  intro d
  induction d with
  | nil =>
    intro k v
    simp [dictGet, dictExtend]
  | cons kv rest ih =>
    intro k v
    obtain ⟨k', v'⟩ := kv
    by_cases hk : k' = k
    · subst hk
      simp [dictGet, dictExtend]
    · simp only [dictExtend, hk, if_false, dictGet]
      exact ih k v

theorem dictGet_dictExtend_other :
    ∀ (d : List (List Char × List Nat)) (k k2 : List Char) (v : List Nat), k ≠ k2 →
      dictGet (dictExtend d k v) k2 = dictGet d k2 := by
  intro d
  induction d with
  | nil =>
    intro k k2 v hne
    simp [dictGet, dictExtend, hne]
  | cons kv rest ih =>
    intro k k2 v hne
    obtain ⟨k', v'⟩ := kv
    by_cases hk : k' = k
    · subst hk
      have hne2 : ¬ (k' = k2) := hne
      simp [dictGet, dictExtend, hne2]
    · simp only [dictExtend, hk, if_false, dictGet]
      by_cases hk2 : k' = k2
      · rw [if_pos hk2, if_pos hk2]
      · rw [if_neg hk2, if_neg hk2]
        exact ih k k2 v hne

theorem dictGet_append_single :
    ∀ (d : List (List Char × List Nat)) (kv : List Char × List Nat) (k : List Char),
      dictGet (d ++ [kv]) k =
        match dictGet d k with
        | some v => some v
        | none => if kv.1 = k then some kv.2 else none := by
  intro d
  induction d with
  | nil =>
    intro kv k
    simp [dictGet]
  | cons kv0 rest ih =>
    intro kv k
    obtain ⟨k', v'⟩ := kv0
    by_cases hk : k' = k
    · simp [dictGet, hk]
    · simp only [List.cons_append, dictGet, hk, if_false]
      exact ih kv k

theorem dictGet_eq_none_of_not_mem :
    ∀ (d : List (List Char × List Nat)) (k : List Char),
      k ∉ d.map Prod.fst → dictGet d k = none := by
  intro d
  induction d with
  | nil => intro k _; rfl
  | cons kv rest ih =>
    intro k hk
    obtain ⟨k', v'⟩ := kv
    simp only [List.map_cons, List.mem_cons] at hk
    push_neg at hk
    simp only [dictGet]
    rw [if_neg (fun he => hk.1 he.symm)]
    exact ih k hk.2

theorem mergeShard_get :
    ∀ (result m : List (List Char × List Nat)), (result.map Prod.fst).Nodup →
      ∀ k, dictGet (mergeShard m result) k =
        combineOpt (dictGet m k) (dictGet result k) := by
  intro result
  induction result with
  | nil =>
    intro m _ k
    simp only [mergeShard, List.foldl_nil, dictGet]
    cases dictGet m k <;> rfl
  | cons kv rest ih =>
    intro m hnd k
    obtain ⟨k0, v0⟩ := kv
    simp only [List.map_cons, List.nodup_cons] at hnd
    obtain ⟨hk0, hndr⟩ := hnd
    simp only [mergeShard, List.foldl_cons]
    have hstep := ih (if (dictGet m k0).isSome then dictExtend m k0 v0 else m ++ [(k0, v0)])
      hndr k
    simp only [mergeShard] at hstep
    rw [hstep]
    by_cases hk : k0 = k
    · subst hk
      have hrest : dictGet rest k0 = none := dictGet_eq_none_of_not_mem rest k0 hk0
      simp only [dictGet, if_pos rfl]
      cases hm : dictGet m k0 with
      | none =>
        simp only [hm, Option.isSome_none, Bool.false_eq_true, if_false]
        rw [dictGet_append_single, hm, hrest]
        simp [combineOpt]
      | some v =>
        simp only [hm, Option.isSome_some, if_true]
        rw [dictGet_dictExtend_same, hm, hrest]
        simp [combineOpt]
    · simp only [dictGet]
      rw [if_neg hk]
      cases hm : dictGet m k0 with
      | none =>
        simp only [hm, Option.isSome_none, Bool.false_eq_true, if_false]
        rw [dictGet_append_single]
        cases hmk : dictGet m k with
        | none => simp [hk]
        | some w => simp
      | some v =>
        simp only [hm, Option.isSome_some, if_true]
        rw [dictGet_dictExtend_other m k0 k v0 hk]

theorem flatten_nil_of_all_none (k : List Char) :
    ∀ (rs : List (List (List Char × List Nat))),
      (∀ r ∈ rs, dictGet r k = none) →
      (rs.map (fun r => (dictGet r k).getD [])).flatten = [] := by
  intro rs
  induction rs with
  | nil => intro _; rfl
  | cons r rest ih =>
    intro h
    simp only [List.map_cons, List.flatten_cons]
    rw [h r (List.mem_cons_self r rest), ih (fun q hq => h q (List.mem_cons_of_mem r hq))]
    rfl

theorem combineOpt_assoc (a b c : Option (List Nat)) :
    combineOpt (combineOpt a b) c = combineOpt a (combineOpt b c) := by
  cases a <;> cases b <;> cases c <;> simp [combineOpt]

theorem foldl_mergeShard_get :
    ∀ (results : List (List (List Char × List Nat)))
      (m : List (List Char × List Nat)),
      (∀ r ∈ results, (r.map Prod.fst).Nodup) →
      ∀ k, dictGet (results.foldl mergeShard m) k =
        combineOpt (dictGet m k)
          (if ∀ r ∈ results, dictGet r k = none then none
           else some ((results.map (fun r => (dictGet r k).getD [])).flatten)) := by
  intro results
  induction results with
  | nil =>
    intro m _ k
    have htriv : ∀ r ∈ ([] : List (List (List Char × List Nat))), dictGet r k = none := by
      intro r hr
      cases hr
    rw [List.foldl_nil, if_pos htriv]
    cases dictGet m k <;> rfl
  | cons r rs ih =>
    intro m hnd k
    have hr := hnd r (List.mem_cons_self r rs)
    have hrs : ∀ q ∈ rs, (q.map Prod.fst).Nodup :=
      fun q hq => hnd q (List.mem_cons_of_mem r hq)
    simp only [List.foldl_cons]
    rw [ih (mergeShard m r) hrs k, mergeShard_get r m hr k, combineOpt_assoc]
    congr 1
    by_cases hall : ∀ q ∈ rs, dictGet q k = none
    · rw [if_pos hall]
      by_cases hrk : dictGet r k = none
      · rw [if_pos ?_, hrk]
        · rfl
        · intro q hq
          rcases List.mem_cons.mp hq with rfl | hq2
          · exact hrk
          · exact hall q hq2
      · rw [if_neg (fun hc => hrk (hc r (List.mem_cons_self r rs)))]
        cases hrv : dictGet r k with
        | none => exact absurd hrv hrk
        | some v =>
          simp only [combineOpt, List.map_cons, List.flatten_cons, hrv, Option.getD_some]
          rw [flatten_nil_of_all_none k rs hall]
          simp
    · rw [if_neg hall, if_neg (fun hc => hall (fun q hq => hc q (List.mem_cons_of_mem r hq)))]
      cases hrv : dictGet r k with
      | none =>
        simp only [combineOpt, List.map_cons, List.flatten_cons, hrv, Option.getD_none]
        rw [List.nil_append]
      | some v =>
        simp only [combineOpt, List.map_cons, List.flatten_cons, hrv, Option.getD_some]

theorem mergeAll_get (results : List (List (List Char × List Nat)))
    (hnd : ∀ r ∈ results, (r.map Prod.fst).Nodup) (k : List Char) :
    dictGet (mergeAll results) k =
      if ∀ r ∈ results, dictGet r k = none then none
      else some ((results.map (fun r => (dictGet r k).getD [])).flatten) := by
  unfold mergeAll
  rw [foldl_mergeShard_get results [] hnd k]
  cases hif : (if ∀ r ∈ results, dictGet r k = none then (none : Option (List Nat))
      else some ((results.map (fun r => (dictGet r k).getD [])).flatten)) <;>
    simp [dictGet, combineOpt, hif]

/-- Claim C8: merging the per-shard dictionaries in any permutation of shard
order yields the same product-to-listing-indices mapping up to the internal
order of each key's sequence: a key is present in one merged result exactly
when it is present in the other, and per key the two listing-index sequences
are permutations of each other (equal as multisets, hence as sets). -/
theorem c8_merge_order_irrelevant
    (results results' : List (List (List Char × List Nat)))
    (hp : results.Perm results')
    (hnd : ∀ r ∈ results, (r.map Prod.fst).Nodup) :
    ∀ k, (dictGet (mergeAll results) k).isSome =
        (dictGet (mergeAll results') k).isSome ∧
      ((dictGet (mergeAll results) k).getD []).Perm
        ((dictGet (mergeAll results') k).getD []) := by
  intro k
  have hnd' : ∀ r ∈ results', (r.map Prod.fst).Nodup :=
    fun r hr => hnd r (hp.mem_iff.mpr hr)
  rw [mergeAll_get results hnd k, mergeAll_get results' hnd' k]
  by_cases hall : ∀ r ∈ results, dictGet r k = none
  · have hall' : ∀ r ∈ results', dictGet r k = none :=
      fun r hr => hall r (hp.mem_iff.mpr hr)
    rw [if_pos hall, if_pos hall']
    exact ⟨rfl, List.Perm.refl []⟩
  · have hall' : ¬ ∀ r ∈ results', dictGet r k = none :=
      fun hc => hall (fun r hr => hc r (hp.mem_iff.mp hr))
    rw [if_neg hall, if_neg hall']
    refine ⟨rfl, ?_⟩
    simp only [Option.getD_some]
    exact (hp.map (fun r => (dictGet r k).getD [])).flatten

/-- Concrete instantiation of `c8_merge_order_irrelevant`, discharging its
hypotheses on two small shard results merged in both orders. -/
theorem c8_witness :
    (List.Perm [[(("a".data : List Char), [1]), ("b".data, [3])], [("a".data, [2])]]
        [[(("a".data : List Char), [2])], [("a".data, [1]), ("b".data, [3])]] ∧
      (∀ r ∈ [[(("a".data : List Char), [1]), ("b".data, [3])], [("a".data, [2])]],
        (r.map Prod.fst).Nodup)) ∧
    ((dictGet (mergeAll [[(("a".data : List Char), [1]), ("b".data, [3])],
          [("a".data, [2])]]) "a".data).isSome =
        (dictGet (mergeAll [[(("a".data : List Char), [2])],
          [("a".data, [1]), ("b".data, [3])]]) "a".data).isSome ∧
      ((dictGet (mergeAll [[(("a".data : List Char), [1]), ("b".data, [3])],
          [("a".data, [2])]]) "a".data).getD []).Perm
        ((dictGet (mergeAll [[(("a".data : List Char), [2])],
          [("a".data, [1]), ("b".data, [3])]]) "a".data).getD [])) :=
  ⟨⟨by decide, by decide⟩,
    c8_merge_order_irrelevant
      [[(("a".data : List Char), [1]), ("b".data, [3])], [("a".data, [2])]]
      [[(("a".data : List Char), [2])], [("a".data, [1]), ("b".data, [3])]]
      (by decide) (by decide) "a".data⟩

/-- Shard selection of `match_listings`: keep the listings whose running
count is congruent to `modulo` modulo `divisor`. -/
def selectAux (modulo divisor : Nat) : List Listing → Nat → List Listing
  | [], _ => []
  | l :: rest, count =>
    if count % divisor = modulo then l :: selectAux modulo divisor rest (count + 1)
    else selectAux modulo divisor rest (count + 1)

/-- The shard of `match_listings`: every `divisor`-th listing starting at
`modulo`. -/
def selectShard (listings : List Listing) (modulo divisor : Nat) : List Listing :=
  selectAux modulo divisor listings 0

/-- Recording of one listing index under its resolved product name
(`product_matches = product_to_listings.get(result, [])`, bound into the
dict when new, then `product_matches.append(index)`). -/
def dictAppend (d : List (List Char × List Nat)) (name : List Char) (i : Nat) :
    List (List Char × List Nat) :=
  dictExtend d name [i]

/-- Loop of `match_listings` over the shard's listings: match each listing,
resolve the candidates (`resolveNames` embeds the inline
`longest_match` / prefix-join / `elif` block), record the original index
under the resolved name, and step the index by `divisor`; `none` models a
worker killed by an exception. -/
def workerGo (products : List Product) (divisor : Nat) :
    List Listing → Nat → List (List Char × List Nat) →
      Option (List (List Char × List Nat))
  | [], _, d => some d
  | l :: rest, index, d =>
    match match_product l products with
    | none => none
    | some names =>
      match resolveNames names with
      | some name =>
        workerGo products divisor rest (index + divisor) (dictAppend d name index)
      | none => workerGo products divisor rest (index + divisor) d

/-- The pure core of `match_listings`: select the shard (counts congruent to
`modulo`), then process it with the running index starting at `modulo`. -/
def match_listings (listings : List Listing) (products : List Product)
    (modulo divisor : Nat) : Option (List (List Char × List Nat)) :=
  workerGo products divisor (selectShard listings modulo divisor) modulo []

/-- Single-pass equivalent of the worker used for its verification: walk all
listings with their original counts, processing exactly those congruent to
`modulo`. -/
def fusedGo (products : List Product) (modulo divisor : Nat) :
    List Listing → Nat → List (List Char × List Nat) →
      Option (List (List Char × List Nat))
  | [], _, d => some d
  | l :: rest, c, d =>
    if c % divisor = modulo then
      match match_product l products with
      | none => none
      | some names =>
        match resolveNames names with
        | some name => fusedGo products modulo divisor rest (c + 1) (dictAppend d name c)
        | none => fusedGo products modulo divisor rest (c + 1) d
    else fusedGo products modulo divisor rest (c + 1) d

/-- The original indices recorded under `name` by the worker when walking
`ls` from count `c`. -/
def hitIdxs (products : List Product) (modulo divisor : Nat) (name : List Char) :
    List Listing → Nat → List Nat
  | [], _ => []
  | l :: rest, c =>
    (if c % divisor = modulo ∧ (match_product l products).bind resolveNames = some name
     then [c] else []) ++ hitIdxs products modulo divisor name rest (c + 1)

theorem workerGo_selectAux (products : List Product) (modulo divisor : Nat) :
    ∀ (ls : List Listing) (c idx : Nat) (d : List (List Char × List Nat)),
      c ≤ idx → idx < c + divisor → idx % divisor = modulo →
      workerGo products divisor (selectAux modulo divisor ls c) idx d =
        fusedGo products modulo divisor ls c d := by
  intro ls
  induction ls with
  | nil =>
    intro c idx d _ _ _
    rfl
  | cons l rest ih =>
    intro c idx d h1 h2 h3
    by_cases hc : c % divisor = modulo
    · have hcmod : c % divisor = idx % divisor := by rw [h3, hc]
      have hdvd : divisor ∣ idx - c := (Nat.modEq_iff_dvd' h1).mp hcmod
      have hz : idx - c = 0 := Nat.eq_zero_of_dvd_of_lt hdvd (by omega)
      have hidx : idx = c := by omega
      subst hidx
      simp only [selectAux, if_pos hc, workerGo, fusedGo, if_pos hc]
      cases hmp : match_product l products with
      | none => rfl
      | some names =>
        cases hrn : resolveNames names with
        | some name =>
          simp only [hrn]
          exact ih (idx + 1) (idx + divisor) (dictAppend d name idx)
            (by omega) (by omega) (by rw [Nat.add_mod_right, h3])
        | none =>
          simp only [hrn]
          exact ih (idx + 1) (idx + divisor) d
            (by omega) (by omega) (by rw [Nat.add_mod_right, h3])
    · have hne : idx ≠ c := fun he => hc (by rw [← he, h3])
      simp only [selectAux, if_neg hc, fusedGo, if_neg hc]
      exact ih (c + 1) idx d (by omega) (by omega) h3

theorem fusedGo_spec (products : List Product) (modulo divisor : Nat) :
    ∀ (ls : List Listing) (c : Nat) (d : List (List Char × List Nat)),
      (∀ l ∈ ls, match_product l products ≠ none) →
      ∃ D, fusedGo products modulo divisor ls c d = some D ∧
        ∀ name, dictGet D name =
          match dictGet d name with
          | some v => some (v ++ hitIdxs products modulo divisor name ls c)
          | none =>
            if hitIdxs products modulo divisor name ls c = [] then none
            else some (hitIdxs products modulo divisor name ls c) := by
  intro ls
  induction ls with
  | nil =>
    intro c d _
    refine ⟨d, rfl, ?_⟩
    intro name
    simp only [hitIdxs]
    cases dictGet d name <;> simp
  | cons l rest ih =>
    intro c d hok
    have hokl : match_product l products ≠ none := hok l (List.mem_cons_self l rest)
    have hokr : ∀ q ∈ rest, match_product q products ≠ none :=
      fun q hq => hok q (List.mem_cons_of_mem l hq)
    by_cases hc : c % divisor = modulo
    · cases hmp : match_product l products with
      | none => exact absurd hmp hokl
      | some names =>
        cases hrn : resolveNames names with
        | some name0 =>
          obtain ⟨D, hD, hchar⟩ := ih (c + 1) (dictAppend d name0 c) hokr
          refine ⟨D, ?_, ?_⟩
          · simp only [fusedGo, if_pos hc, hmp, hrn]
            exact hD
          · intro name
            rw [hchar name]
            by_cases hname : name = name0
            · subst hname
              have hget := dictGet_dictExtend_same d name [c]
              simp only [dictAppend, hget]
              have hcond : c % divisor = modulo ∧
                  (match_product l products).bind resolveNames = some name := by
                constructor
                · exact hc
                · rw [hmp]
                  exact hrn
              simp only [hitIdxs, if_pos hcond]
              cases hdn : dictGet d name with
              | none => simp
              | some v => simp
            · have hget := dictGet_dictExtend_other d name0 name [c]
                (fun he => hname he.symm)
              simp only [dictAppend, hget]
              have hcond : ¬ (c % divisor = modulo ∧
                  (match_product l products).bind resolveNames = some name) := by
                intro hcon
                apply hname
                have hb := hcon.2
                rw [hmp] at hb
                have hb2 : resolveNames names = some name := hb
                rw [hrn] at hb2
                injection hb2 with hb3
                exact hb3.symm
              simp only [hitIdxs, if_neg hcond, List.nil_append]
        | none =>
          obtain ⟨D, hD, hchar⟩ := ih (c + 1) d hokr
          refine ⟨D, ?_, ?_⟩
          · simp only [fusedGo, if_pos hc, hmp, hrn]
            exact hD
          · intro name
            rw [hchar name]
            have hcond : ¬ (c % divisor = modulo ∧
                (match_product l products).bind resolveNames = some name) := by
              intro hcon
              have hb := hcon.2
              rw [hmp] at hb
              have hb2 : resolveNames names = some name := hb
              rw [hrn] at hb2
              cases hb2
            simp only [hitIdxs, if_neg hcond, List.nil_append]
    · obtain ⟨D, hD, hchar⟩ := ih (c + 1) d hokr
      refine ⟨D, ?_, ?_⟩
      · simp only [fusedGo, if_neg hc]
        exact hD
      · intro name
        rw [hchar name]
        have hcond : ¬ (c % divisor = modulo ∧
            (match_product l products).bind resolveNames = some name) :=
          fun hcon => hc hcon.1
        simp only [hitIdxs, if_neg hcond, List.nil_append]

theorem hitIdxs_ge (products : List Product) (modulo divisor : Nat) (name : List Char) :
    ∀ (ls : List Listing) (c : Nat), ∀ i ∈ hitIdxs products modulo divisor name ls c,
      c ≤ i := by
  intro ls
  induction ls with
  | nil =>
    intro c i hi
    cases hi
  | cons l rest ih =>
    intro c i hi
    simp only [hitIdxs] at hi
    rcases List.mem_append.mp hi with h1 | h1
    · split at h1
      · simp only [List.mem_singleton] at h1
        omega
      · cases h1
    · have := ih (c + 1) i h1
      omega

theorem hitIdxs_sorted (products : List Product) (modulo divisor : Nat) (name : List Char) :
    ∀ (ls : List Listing) (c : Nat),
      List.Pairwise (fun a b => a < b) (hitIdxs products modulo divisor name ls c) := by
  intro ls
  induction ls with
  | nil =>
    intro c
    exact List.Pairwise.nil
  | cons l rest ih =>
    intro c
    simp only [hitIdxs]
    split
    · simp only [List.singleton_append]
      refine List.Pairwise.cons ?_ (ih (c + 1))
      intro b hb
      have := hitIdxs_ge products modulo divisor name rest (c + 1) b hb
      omega
    · simp only [List.nil_append]
      exact ih (c + 1)

theorem hitIdxs_mem_sound (products : List Product) (modulo divisor : Nat)
    (name : List Char) :
    ∀ (ls : List Listing) (c i : Nat), i ∈ hitIdxs products modulo divisor name ls c →
      c ≤ i ∧ i % divisor = modulo ∧
        ∃ l, ls.get? (i - c) = some l ∧
          (match_product l products).bind resolveNames = some name := by
  intro ls
  induction ls with
  | nil =>
    intro c i hi
    cases hi
  | cons l rest ih =>
    intro c i hi
    simp only [hitIdxs] at hi
    rcases List.mem_append.mp hi with h1 | h1
    · split at h1
      · rename_i hcond
        simp only [List.mem_singleton] at h1
        subst h1
        refine ⟨Nat.le_refl i, hcond.1, l, ?_, hcond.2⟩
        simp
      · cases h1
    · obtain ⟨hgc, hmod2, l2, hget, hres⟩ := ih (c + 1) i h1
      refine ⟨by omega, hmod2, l2, ?_, hres⟩
      have hidx : i - c = (i - (c + 1)) + 1 := by omega
      rw [hidx]
      exact hget

/-- Claim C9: with worker parameters `modulo < divisor` and `0 < divisor`, a
product catalog with non-empty normalized needles (so no worker exception),
and the full listing sequence, the worker's produced mapping satisfies:
every recorded identifier is the index, in the original full sequence, of a
listing that resolves to the name it is recorded under and is congruent to
`modulo` mod `divisor`; every name present maps to a non-empty sequence;
each name's sequence is strictly increasing (so an index appears at most
once under a name); and an index appears under at most one name. -/
theorem c9_worker_invariants (listings : List Listing) (products : List Product)
    (modulo divisor : Nat) (hmod : modulo < divisor)
    (hok : ∀ l ∈ listings, match_product l products ≠ none) :
    ∃ D, match_listings listings products modulo divisor = some D ∧
      ∀ name idxs, dictGet D name = some idxs →
        idxs ≠ [] ∧ List.Pairwise (fun a b => a < b) idxs ∧
        (∀ i ∈ idxs, i % divisor = modulo ∧
          ∃ l, listings.get? i = some l ∧
            (match_product l products).bind resolveNames = some name) ∧
        (∀ name2 idxs2, dictGet D name2 = some idxs2 → ∀ i, i ∈ idxs → i ∈ idxs2 →
          name = name2) := by
  obtain ⟨D, hD, hchar⟩ := fusedGo_spec products modulo divisor listings 0 [] hok
  have heq : match_listings listings products modulo divisor = some D := by
    unfold match_listings selectShard
    rw [workerGo_selectAux products modulo divisor listings 0 modulo []
      (by omega) (by omega) (Nat.mod_eq_of_lt hmod)]
    exact hD
  refine ⟨D, heq, ?_⟩
  have hval : ∀ name idxs, dictGet D name = some idxs →
      idxs = hitIdxs products modulo divisor name listings 0 ∧
        hitIdxs products modulo divisor name listings 0 ≠ [] := by
    intro name idxs hidx
    have hch := hchar name
    rw [hidx] at hch
    simp only [dictGet] at hch
    by_cases hhe : hitIdxs products modulo divisor name listings 0 = []
    · rw [if_pos hhe] at hch
      cases hch
    · rw [if_neg hhe] at hch
      injection hch with hch2
      exact ⟨hch2, hhe⟩
  intro name idxs hidx
  obtain ⟨hieq, hhe⟩ := hval name idxs hidx
  subst hieq
  refine ⟨hhe, hitIdxs_sorted products modulo divisor name listings 0, ?_, ?_⟩
  · intro i hi
    obtain ⟨_, hmod2, l2, hget, hres⟩ :=
      hitIdxs_mem_sound products modulo divisor name listings 0 i hi
    refine ⟨hmod2, l2, ?_, hres⟩
    simpa using hget
  · intro name2 idxs2 hidx2 i hi hi2
    obtain ⟨hieq2, _⟩ := hval name2 idxs2 hidx2
    rw [hieq2] at hi2
    obtain ⟨_, _, l2, hget, hres⟩ :=
      hitIdxs_mem_sound products modulo divisor name listings 0 i hi
    obtain ⟨_, _, l3, hget3, hres3⟩ :=
      hitIdxs_mem_sound products modulo divisor name2 listings 0 i hi2
    rw [hget] at hget3
    injection hget3 with hl23
    subst hl23
    rw [hres] at hres3
    injection hres3 with hn

/-- Listings used to instantiate the worker invariants. -/
def witnessListings : List Listing :=
  [⟨"Sony DSC-T99".data⟩, ⟨"Battery for Sony DSC-T99".data⟩]

/-- Product catalog used to instantiate the worker invariants. -/
def witnessProducts : List Product :=
  [⟨"T99".data, "sony".data, "dsct99".data, none⟩]

/-- Concrete instantiation of `c9_worker_invariants`, discharging its
hypotheses at a two-listing, one-product run with `modulo = 0`,
`divisor = 1`. -/
theorem c9_witness :
    ((0 : Nat) < 1 ∧
      (∀ l ∈ witnessListings, match_product l witnessProducts ≠ none)) ∧
    (∃ D, match_listings witnessListings witnessProducts 0 1 = some D ∧
      ∀ name idxs, dictGet D name = some idxs →
        idxs ≠ [] ∧ List.Pairwise (fun a b => a < b) idxs ∧
        (∀ i ∈ idxs, i % 1 = 0 ∧
          ∃ l, witnessListings.get? i = some l ∧
            (match_product l witnessProducts).bind resolveNames = some name) ∧
        (∀ name2 idxs2, dictGet D name2 = some idxs2 → ∀ i, i ∈ idxs → i ∈ idxs2 →
          name = name2)) :=
  ⟨⟨by decide, by decide⟩,
    c9_worker_invariants witnessListings witnessProducts 0 1 (by decide) (by decide)⟩

/-- The mutable-default `settings` cache of `fuzzy_match`: `settings[0]` is
the last haystack (initially `None`), `settings[1]` the needle-to-result
memo for it, `settings[2]` its normalized form (initially `None`). -/
structure Settings where
  s0 : Option (List Char)
  s1 : List (List Char × Int)
  s2 : Option (List Char)

/-- The initial cache `[None, {}, None]`. -/
def initSettings : Settings := ⟨none, [], none⟩

/-- Memo lookup: `needle in settings[1]` followed by `settings[1][needle]`. -/
def memoGet : List (List Char × Int) → List Char → Option Int
  | [], _ => none
  | (k, v) :: rest, n => if k = n then some v else memoGet rest n

/-- The haystack check at the top of `fuzzy_match`
(`if haystack != settings[0]`): on a new haystack, remember it, reset the
memo and cache its normalized form. -/
def settingsFor (haystack : List Char) (s : Settings) : Settings :=
  if s.s0 = some haystack then s
  else ⟨some haystack, [], some (normalize haystack)⟩

/-- The memoised `fuzzy_match` as a state transformer over the cache:
returns the result (`none` models an `IndexError`) and the updated cache.
Both the found offset and the final `-1` are stored in the memo; the
quick-reject `-1` and an exception are not. -/
def fuzzyMatchS (haystack needle : List Char) (s : Settings) :
    Option Int × Settings :=
  match memoGet (settingsFor haystack s).s1 needle with
  | some r => (some r, settingsFor haystack s)
  | none =>
    match (settingsFor haystack s).s2 with
    | none => (none, settingsFor haystack s)
    | some stripped =>
      if pyFind stripped needle < 0 then (some (-1), settingsFor haystack s)
      else
        match scanAux haystack needle
            (((haystack.length : Int) - (needle.length : Int) + 1 -
              pyFind stripped needle).toNat)
            (pyFind stripped needle).toNat true with
        | none => (none, settingsFor haystack s)
        | some r =>
          (some r, { settingsFor haystack s with
                      s1 := (settingsFor haystack s).s1 ++ [(needle, r)] })

/-- The cache state left behind by a sequence of earlier calls. -/
def applyCalls (calls : List (List Char × List Char)) : Settings :=
  calls.foldl (fun s c => (fuzzyMatchS c.1 c.2 s).2) initSettings

/-- Cache consistency: when a haystack is cached, the cached normalized form
is its normalization and every memo entry holds the fresh-cache result. -/
def SettingsInv (s : Settings) : Prop :=
  ∀ h : List Char, s.s0 = some h →
    s.s2 = some (normalize h) ∧
    ∀ n r, memoGet s.s1 n = some r → fuzzyMatch h n = some r

theorem memoGet_append (m : List (List Char × Int)) (k : List Char) (v : Int) :
    ∀ n, memoGet (m ++ [(k, v)]) n =
      match memoGet m n with
      | some r => some r
      | none => if k = n then some v else none := by
  induction m with
  | nil =>
    intro n
    simp [memoGet]
  | cons kv rest ih =>
    intro n
    obtain ⟨k', v'⟩ := kv
    by_cases hk : k' = n
    · simp [memoGet, hk]
    · simp only [List.cons_append, memoGet, hk, if_false]
      exact ih n

theorem settingsFor_s0 (haystack : List Char) (s : Settings) :
    (settingsFor haystack s).s0 = some haystack := by
  unfold settingsFor
  by_cases h : s.s0 = some haystack
  · rw [if_pos h]
    exact h
  · rw [if_neg h]

theorem settingsFor_inv (haystack : List Char) (s : Settings)
    (hinv : SettingsInv s) : SettingsInv (settingsFor haystack s) := by
  unfold settingsFor
  by_cases h : s.s0 = some haystack
  · rw [if_pos h]
    exact hinv
  · rw [if_neg h]
    intro h2 h0
    simp only at h0
    injection h0 with h0
    subst h0
    refine ⟨rfl, ?_⟩
    intro n r hmr
    cases hmr

theorem fuzzyMatchS_correct (haystack needle : List Char) (s : Settings)
    (hinv : SettingsInv s) :
    (fuzzyMatchS haystack needle s).1 = fuzzyMatch haystack needle ∧
    SettingsInv (fuzzyMatchS haystack needle s).2 := by
  have hs0 := settingsFor_s0 haystack s
  have hinv' := settingsFor_inv haystack s hinv
  obtain ⟨hs2, hmemo⟩ := hinv' haystack hs0
  unfold fuzzyMatchS
  cases hm : memoGet (settingsFor haystack s).s1 needle with
  | some r =>
    simp only
    exact ⟨(hmemo needle r hm).symm, hinv'⟩
  | none =>
    simp only [hs2]
    by_cases hq : pyFind (normalize haystack) needle < 0
    · rw [if_pos hq]
      simp only
      constructor
      · simp only [fuzzyMatch]
        rw [if_pos hq]
      · exact hinv'
    · rw [if_neg hq]
      cases hscan : scanAux haystack needle
          (((haystack.length : Int) - (needle.length : Int) + 1 -
            pyFind (normalize haystack) needle).toNat)
          (pyFind (normalize haystack) needle).toNat true with
      | none =>
        simp only
        constructor
        · simp only [fuzzyMatch]
          rw [if_neg hq]
          exact hscan.symm
        · exact hinv'
      | some r =>
        simp only
        constructor
        · simp only [fuzzyMatch]
          rw [if_neg hq]
          exact hscan.symm
        · intro h2 h0
          simp only at h0
          rw [hs0] at h0
          injection h0 with h0
          subst h0
          refine ⟨rfl, ?_⟩
          intro n2 r2 hmr
          rw [memoGet_append] at hmr
          cases hold : memoGet (settingsFor haystack s).s1 n2 with
          | some r3 =>
            rw [hold] at hmr
            simp only at hmr
            exact hmr ▸ hmemo n2 r3 hold
          | none =>
            rw [hold] at hmr
            simp only at hmr
            by_cases hkn : needle = n2
            · rw [if_pos hkn] at hmr
              injection hmr with hmr2
              rw [← hmr2, ← hkn]
              simp only [fuzzyMatch]
              rw [if_neg hq]
              exact hscan
            · rw [if_neg hkn] at hmr
              cases hmr

theorem applyCalls_inv (calls : List (List Char × List Char)) :
    SettingsInv (applyCalls calls) := by
  have hgen : ∀ (cs : List (List Char × List Char)) (s : Settings), SettingsInv s →
      SettingsInv (cs.foldl (fun s c => (fuzzyMatchS c.1 c.2 s).2) s) := by
    intro cs
    induction cs with
    | nil =>
      intro s h
      exact h
    | cons c rest ih =>
      intro s h
      exact ih _ ((fuzzyMatchS_correct c.1 c.2 s h).2)
  have hinit : SettingsInv initSettings := by
    intro h2 h0
    simp [initSettings] at h0
  exact hgen calls initSettings hinit

/-- Claim C10: `fuzzy_match` is deterministic and cache-transparent: after
any sequence of earlier calls with arbitrary haystack/needle arguments
(which populate or invalidate the mutable `settings` cache), a call on
`(haystack, needle)` returns exactly the value of the fresh-cache
computation `fuzzyMatch haystack needle`. -/
theorem c10_cache_transparency (calls : List (List Char × List Char))
    (haystack needle : List Char) :
    (fuzzyMatchS haystack needle (applyCalls calls)).1 = fuzzyMatch haystack needle :=
  (fuzzyMatchS_correct haystack needle (applyCalls calls) (applyCalls_inv calls)).1

end Snpsrt

